import Mathlib

/-!
# Commander test-suite loader: `pkg/suite/yaml_suite.go`

A shallow embedding of the YAML suite loader of the commander CLI testing
tool, and theorems about the normalisation of `stdout` / `stderr` assertions
(`convertToExpectedOut`), its inverse (`convertExpectedOut`), the merge of the
global and the local configuration (`mergeConfigs`) and the loading of a
document (`UnmarshalYAML`, `ParseYAML`).

Modelling conventions.

* A Go `panic` is `none`; a function that can panic returns `Option`.
* A Go slice or map whose nil-ness the code observes (`== nil`, `make`) is an
  `Option (List _)`: `none` is the nil slice / nil map, `some l` a non-nil one
  holding the entries `l`.  Maps are association lists with distinct keys,
  written with `mapSet`.
* A Go `int` is an `Int`: the code does no arithmetic on it.
-/

namespace Commander

/-! ## Decoded YAML values -/

/-- A value as yaml.v2 decodes it into an `interface{}`: nil, a string, an
int, a bool, a float (kept as its literal), a `[]interface{}` or a
`map[interface{}]interface{}` (its entries, keys distinct). -/
inductive Value where
  | null
  | str (s : String)
  | int (n : Int)
  | bool (b : Bool)
  | float (lit : String)
  | list (xs : List Value)
  | map (kvs : List (Value × Value))

/-! ## Go primitives used by the file -/

/-- The cutset test of `strings.Trim(_, "\n")`. -/
def isNewline (c : Char) : Bool := c == '\n'

/-- Go `strings.Trim(s, "\n")`: drops every leading and every trailing newline. -/
def trimNewlines (s : String) : String :=
  String.mk ((s.toList.dropWhile isNewline).rdropWhile isNewline)

/-- Go `strings.TrimRight(s, "\n")`: drops every trailing newline only. -/
def trimRightNewlines (s : String) : String :=
  String.mk (s.toList.rdropWhile isNewline)

/-- Go `fmt.Sprintf("%s", v)`.  A string operand is printed as itself; what the
fmt package prints for any other operand is the parameter `fmtOther`. -/
def sprintS (fmtOther : Value → String) : Value → String
  | .str s => s
  | v => fmtOther v

/-- Go `m[k] = v` on a map held as an association list. -/
def mapSet {κ ν : Type} [DecidableEq κ] : List (κ × ν) → κ → ν → List (κ × ν)
  | [], k, v => [(k, v)]
  | (k', v') :: rest, k, v =>
    if k' = k then (k, v) :: rest else (k', v') :: mapSet rest k v

/-- Go `v[key]` on a `map[interface{}]interface{}` with a string key: the
value stored under the string `key`, nil when there is none. -/
def index : List (Value × Value) → String → Value
  | [], _ => .null
  | (.str s, x) :: rest, key => if s = key then x else index rest key
  | _ :: rest, key => index rest key

/-- Go `append(s, x)` on a possibly nil slice. -/
def goAppend {α : Type} (s : Option (List α)) (x : α) : Option (List α) :=
  some (s.getD [] ++ [x])

/-- The entries of a possibly nil slice or map (`len` is their number). -/
def entries {α : Type} (s : Option (List α)) : List α := s.getD []

/-! ## The canonical assertion record -/

/-- Modelled from the spec: the declaration of `runtime.ExpectedOut` is not in
the source file; its fields are the ones the code reads and writes, typed as
the Expectation record of the data model (contains, lines, exactly,
line-count, not-contains, json). -/
structure ExpectedOut where
  Contains : Option (List String) := none
  Lines : Option (List (Int × String)) := none
  Exactly : String := ""
  LineCount : Int := 0
  NotContains : Option (List String) := none
  JSON : Option (List (String × String)) := none
deriving DecidableEq, Repr

/-! ## `toString` and `convertToExpectedOut` -/

/-- The Go `toString`: `strings.Trim(fmt.Sprintf("%s", s), "\n")`. -/
def toString (fmtOther : Value → String) (s : Value) : String :=
  trimNewlines (sprintS fmtOther s)

/-- The keys accepted by the key check of `convertToExpectedOut`. -/
def allowedKeys : List String :=
  ["contains", "exactly", "line-count", "lines", "json", "xml", "not-contains"]

/-- One round of the key check: `switch k { case "contains", ...: break;
default: panic }`.  A key that is not a string matches no case. -/
def keyAllowed : Value → Bool
  | .str s => allowedKeys.contains s
  | _ => false

/-- The loop `for _, v := range values { s = append(s, toString(v)) }`. -/
def appendAll (fmtOther : Value → String) (s : Option (List String))
    (values : List Value) : Option (List String) :=
  values.foldl (fun acc v => goAppend acc (toString fmtOther v)) s

/-- The contains / not-contains blocks: skipped when the key holds nil, a panic
when the value is not a `[]interface{}`. -/
def parseList (fmtOther : Value → String) (s : Option (List String)) :
    Value → Option (Option (List String))
  | .null => some s
  | .list values => some (appendAll fmtOther s values)
  | _ => none

/-- The exactly block. -/
def parseExactly (fmtOther : Value → String) (old : String) : Value → String
  | .null => old
  | v => toString fmtOther v

/-- The line-count block: `lc.(int)` panics on anything but an int. -/
def parseLineCount (old : Int) : Value → Option Int
  | .null => some old
  | .int n => some n
  | _ => none

/-- The loop of the lines block: `exp.Lines[k.(int)] = toString(v)`. -/
def fillLines (fmtOther : Value → String) :
    List (Value × Value) → List (Int × String) → Option (List (Int × String))
  | [], acc => some acc
  | (.int k, v) :: rest, acc => fillLines fmtOther rest (mapSet acc k (toString fmtOther v))
  | _ :: _, _ => none

/-- The lines block: a fresh map is made, then filled. -/
def parseLines (fmtOther : Value → String) (old : Option (List (Int × String))) :
    Value → Option (Option (List (Int × String)))
  | .null => some old
  | .map l => (fillLines fmtOther l []).map some
  | _ => none

/-- The loop of the json block: `exp.JSON[k.(string)] = v.(string)`. -/
def fillJSON :
    List (Value × Value) → List (String × String) → Option (List (String × String))
  | [], acc => some acc
  | (.str k, .str v) :: rest, acc => fillJSON rest (mapSet acc k v)
  | _ :: _, _ => none

/-- The json block: writes into the map already held by `exp.JSON`. -/
def parseJSON (old : Option (List (String × String))) :
    Value → Option (Option (List (String × String)))
  | .null => some old
  | .map values => (fillJSON values (entries old)).map some
  | _ => none

/-- The Go `convertToExpectedOut`: turns an authored `stdout` / `stderr` value
into an `ExpectedOut`, or panics. -/
def convertToExpectedOut (fmtOther : Value → String) (value : Value) : Option ExpectedOut :=
  let exp : ExpectedOut := { JSON := some [] }
  match value with
  | .str _ => some { exp with Contains := some [toString fmtOther value] }
  | .map v =>
    if v.all (fun kv => keyAllowed kv.1) then do
      let contains ← parseList fmtOther exp.Contains (index v "contains")
      let exactly := parseExactly fmtOther exp.Exactly (index v "exactly")
      let lineCount ← parseLineCount exp.LineCount (index v "line-count")
      let lines ← parseLines fmtOther exp.Lines (index v "lines")
      let notContains ← parseList fmtOther exp.NotContains (index v "not-contains")
      let json ← parseJSON exp.JSON (index v "json")
      pure { Contains := contains, Lines := lines, Exactly := exactly,
             LineCount := lineCount, NotContains := notContains, JSON := json }
    else
      none
  | .null => some exp
  | _ => none

/-! ## `convertExpectedOut` -/

/-- The Go `propertiesAreEmpty`. -/
def propertiesAreEmpty (out : ExpectedOut) : Bool :=
  out.Lines == none &&
    out.Exactly == "" &&
    out.LineCount == 0 &&
    out.NotContains == none

/-- The Go `isContainsASingleNonEmptyString`. -/
def isContainsASingleNonEmptyString (out : ExpectedOut) : Bool :=
  match entries out.Contains with
  | [c] => c != ""
  | _ => false

/-- What `convertExpectedOut` returns in its `interface{}`: nil, a string, or
the `ExpectedOut` struct. -/
inductive Compact where
  | absent
  | scalar (s : String)
  | structured (out : ExpectedOut)
deriving DecidableEq, Repr

/-- The Go `convertExpectedOut`. -/
def convertExpectedOut (out : ExpectedOut) : Compact :=
  if isContainsASingleNonEmptyString out && propertiesAreEmpty out then
    .scalar ((entries out.Contains).headD "")
  else
    let out : ExpectedOut :=
      if entries out.Contains = [""] then { out with Contains := none } else out
    if (entries out.Contains).length == 0 && propertiesAreEmpty out then
      .absent
    else
      .structured out

/-! ## The authored form of a compact value -/

/-- A list-valued key of the structured object, left out when the list is empty. -/
def listField (key : String) (xs : List String) : List (Value × Value) :=
  if xs = [] then [] else [(.str key, .list (xs.map .str))]

/-- A string-valued key of the structured object, left out when the string is empty. -/
def stringField (key : String) (s : String) : List (Value × Value) :=
  if s = "" then [] else [(.str key, .str s)]

/-- An integer-valued key of the structured object, left out when it is zero. -/
def intField (key : String) (n : Int) : List (Value × Value) :=
  if n = 0 then [] else [(.str key, .int n)]

/-- The lines key of the structured object, left out when there are no lines. -/
def linesField (key : String) (l : List (Int × String)) : List (Value × Value) :=
  if l = [] then [] else [(.str key, .map (l.map fun kv => (.int kv.1, .str kv.2)))]

/-- The json key of the structured object, left out when there are no entries. -/
def jsonField (key : String) (l : List (String × String)) : List (Value × Value) :=
  if l = [] then [] else [(.str key, .map (l.map fun kv => (.str kv.1, .str kv.2)))]

/-- Modelled from the spec: the yaml tags of `runtime.ExpectedOut` and the YAML
encoder that writes the value returned by `convertExpectedOut` are not in the
source file.  The authored form is absent, the bare string, or "the
structured object with only non-empty fields present", under the keys of the
document schema. -/
def authored : Compact → Value
  | .absent => .null
  | .scalar s => .str s
  | .structured out =>
    .map (listField "contains" (entries out.Contains)
      ++ linesField "lines" (entries out.Lines)
      ++ stringField "exactly" out.Exactly
      ++ intField "line-count" out.LineCount
      ++ listField "not-contains" (entries out.NotContains)
      ++ jsonField "json" (entries out.JSON))

/-- What every record built by `convertToExpectedOut` satisfies: the strings
stored through `toString` are trimmed, the keys of each map are distinct, the
two slices are nil when they hold nothing, and the json map is never nil. -/
structure Canonical (e : ExpectedOut) : Prop where
  contains : ∀ s ∈ entries e.Contains, trimNewlines s = s
  linesTrimmed : ∀ kv ∈ entries e.Lines, trimNewlines kv.2 = kv.2
  linesKeys : ((entries e.Lines).map Prod.fst).Nodup
  exactly : trimNewlines e.Exactly = e.Exactly
  notContains : ∀ s ∈ entries e.NotContains, trimNewlines s = s
  jsonKeys : ((entries e.JSON).map Prod.fst).Nodup
  containsNil : e.Contains ≠ some []
  notContainsNil : e.NotContains ≠ some []
  jsonMade : e.JSON ≠ none

/-- Two assertion records hold the same entries in every field: a nil slice or
map and an empty one both hold none. -/
def sameEntries (a b : ExpectedOut) : Prop :=
  entries a.Contains = entries b.Contains ∧
    entries a.Lines = entries b.Lines ∧
    a.Exactly = b.Exactly ∧
    a.LineCount = b.LineCount ∧
    entries a.NotContains = entries b.NotContains ∧
    entries a.JSON = entries b.JSON

instance (a b : ExpectedOut) : Decidable (sameEntries a b) := by
  unfold sameEntries
  infer_instance

/-! ## Configuration layers and `mergeConfigs` -/

/-- The Go `YAMLTestConfig`.  The code never tests `Env` or `Nodes` for nil, so
they are plain lists (`Env` an association list). -/
structure YAMLTestConfig where
  InheritEnv : Bool := false
  Env : List (String × String) := []
  Dir : String := ""
  Timeout : String := ""
  Retries : Int := 0
  Interval : String := ""
  Nodes : List String := []
deriving DecidableEq, Repr

/-- The Go `mergeEnvironmentVariables`: a fresh map, the global entries written
first, the local ones over them. -/
def mergeEnvironmentVariables (globalConf localConf : YAMLTestConfig) :
    List (String × String) :=
  let env : List (String × String) := []
  let env := globalConf.Env.foldl (fun env kv => mapSet env kv.1 kv.2) env
  localConf.Env.foldl (fun env kv => mapSet env kv.1 kv.2) env

/-- The Go `mergeConfigs`. -/
def mergeConfigs (localConf globalConf : YAMLTestConfig) : YAMLTestConfig :=
  let conf := globalConf
  let conf := { conf with Env := mergeEnvironmentVariables globalConf localConf }
  let conf := if localConf.Dir ≠ "" then { conf with Dir := localConf.Dir } else conf
  let conf := if localConf.Timeout ≠ "" then { conf with Timeout := localConf.Timeout } else conf
  let conf := if localConf.Retries ≠ 0 then { conf with Retries := localConf.Retries } else conf
  let conf := if localConf.Interval ≠ "" then { conf with Interval := localConf.Interval } else conf
  let conf := if localConf.InheritEnv then { conf with InheritEnv := localConf.InheritEnv } else conf
  let conf := if localConf.Nodes.length ≠ 0 then { conf with Nodes := localConf.Nodes } else conf
  conf

/-! ## The document and `UnmarshalYAML` -/

/-- The Go `NodeConf`; `Kind` is its field `Type`, a reserved word here. -/
structure NodeConf where
  Name : String := ""
  Kind : String := ""
  User : String := ""
  Pass : String := ""
  Addr : String := ""
  Image : String := ""
  IdentityFile : String := ""
deriving DecidableEq, Repr

/-- The Go `YAMLTest`.  Its `Stdout` and `Stderr` are `interface{}`: they hold a
decoded YAML value (`σ = Value`) in the authored document and an `ExpectedOut`
(`σ = ExpectedOut`) once loaded. -/
structure YAMLTest (σ : Type) where
  Title : String := ""
  Command : String := ""
  ExitCode : Int := 0
  Stdout : σ
  Stderr : σ
  Config : YAMLTestConfig := {}

/-- The Go `YAMLConfig` (and the `params` struct of `UnmarshalYAML`, which has
the same three fields).  The two maps are association lists. -/
structure YAMLConfig (σ : Type) where
  Tests : List (String × YAMLTest σ) := []
  Config : YAMLTestConfig := {}
  Nodes : List (String × NodeConf) := []

/-- The body of the tests loop of `UnmarshalYAML` for the entry `k: v`. -/
def loadTest (fmtOther : Value → String) (globalConf : YAMLTestConfig) (k : String)
    (v : YAMLTest Value) : Option (YAMLTest ExpectedOut) := do
  let stdout ← convertToExpectedOut fmtOther v.Stdout
  let stderr ← convertToExpectedOut fmtOther v.Stderr
  let test : YAMLTest ExpectedOut :=
    { Title := k, Command := v.Command, ExitCode := v.ExitCode,
      Stdout := stdout, Stderr := stderr,
      Config := mergeConfigs v.Config globalConf }
  pure (if v.Command = "" then { test with Command := k } else test)

/-- The tests loop of `UnmarshalYAML`: `y.Tests[k] = test` for every entry. -/
def loadTests (fmtOther : Value → String) (globalConf : YAMLTestConfig) :
    List (String × YAMLTest Value) → List (String × YAMLTest ExpectedOut) →
      Option (List (String × YAMLTest ExpectedOut))
  | [], acc => some acc
  | (k, v) :: rest, acc => do
    let test ← loadTest fmtOther globalConf k v
    loadTests fmtOther globalConf rest (mapSet acc k test)

/-- The body of the nodes loop of `UnmarshalYAML` for the entry `k: v`. -/
def loadNode (k : String) (v : NodeConf) : NodeConf :=
  { Name := k, Addr := v.Addr, User := v.User, Kind := v.Kind, Pass := v.Pass,
    IdentityFile := v.IdentityFile }

/-- The nodes loop of `UnmarshalYAML`: `y.Nodes[k] = node` for every entry. -/
def loadNodes (nodes : List (String × NodeConf)) : List (String × NodeConf) :=
  nodes.foldl (fun acc kv => mapSet acc kv.1 (loadNode kv.1 kv.2)) []

/-- The Go `UnmarshalYAML`, from the decoded `params` on. -/
def UnmarshalYAML (fmtOther : Value → String) (params : YAMLConfig Value) :
    Option (YAMLConfig ExpectedOut) := do
  let tests ← loadTests fmtOther params.Config params.Tests []
  let nodes := loadNodes params.Nodes
  pure { Tests := tests, Nodes := nodes,
         Config := { InheritEnv := params.Config.InheritEnv, Env := params.Config.Env,
                     Dir := params.Config.Dir, Timeout := params.Config.Timeout,
                     Retries := params.Config.Retries, Interval := params.Config.Interval,
                     Nodes := params.Config.Nodes } }

/-! ## The runtime model and `ParseYAML` -/

/-- Go `v, ok := m[k]` on a map held as an association list with distinct keys. -/
def mapGet {κ ν : Type} [DecidableEq κ] : List (κ × ν) → κ → Option ν
  | [], _ => none
  | (k', v') :: rest, k => if k' = k then some v' else mapGet rest k

/-- Modelled from the spec: the declaration of `runtime.Node` is not in the
source file; its fields are the ones `convertNodes` sets, the Node record of
the data model.  `Kind` is its field `Type`. -/
structure Node where
  Pass : String := ""
  Kind : String := ""
  User : String := ""
  Addr : String := ""
  Name : String := ""
  Image : String := ""
  IdentityFile : String := ""
deriving DecidableEq, Repr

/-- Modelled from the spec: the declaration of `runtime.CommandUnderTest` is not
in the source file; its fields are the ones `convertYAMLConfToTestCases` sets:
the command of a TestCase with its effective configuration. -/
structure CommandUnderTest where
  Cmd : String := ""
  InheritEnv : Bool := false
  Env : List (String × String) := []
  Dir : String := ""
  Timeout : String := ""
  Retries : Int := 0
  Interval : String := ""
deriving DecidableEq, Repr

/-- Modelled from the spec: the declaration of `runtime.Expected` is not in the
source file; its fields are the ones `convertYAMLConfToTestCases` sets: the
expected exit code and the two Expectation records of a TestCase. -/
structure Expected where
  ExitCode : Int := 0
  Stdout : ExpectedOut := {}
  Stderr : ExpectedOut := {}
deriving DecidableEq, Repr

/-- Modelled from the spec: the declaration of `runtime.TestCase` is not in the
source file; its fields are the ones `convertYAMLConfToTestCases` sets, the
TestCase record of the data model. -/
structure TestCase where
  Title : String := ""
  Command : CommandUnderTest := {}
  Expected : Expected := {}
  Nodes : List String := []
deriving DecidableEq, Repr

/-- Modelled from the spec: the declaration of `runtime.TestConfig` is not in the
source file; its fields are the ones `ParseYAML` sets, the TestConfig record
of the data model. -/
structure TestConfig where
  InheritEnv : Bool := false
  Env : List (String × String) := []
  Dir : String := ""
  Timeout : String := ""
  Retries : Int := 0
  Interval : String := ""
  Nodes : List String := []
deriving DecidableEq, Repr

/-- Modelled from the spec: the declaration of `Suite` is not in the source
file; its fields are the ones `ParseYAML` sets: the test cases, the global
configuration and the node registry. -/
structure Suite where
  TestCases : List TestCase := []
  Config : TestConfig := {}
  Nodes : List Node := []
deriving DecidableEq, Repr

/-- The Go `convertNodes`: one `runtime.Node` per entry of the map. -/
def convertNodes (nodes : List (String × NodeConf)) : List Node :=
  nodes.map fun kv =>
    { Pass := kv.2.Pass, Kind := kv.2.Kind, User := kv.2.User, Addr := kv.2.Addr,
      Name := kv.2.Name, Image := kv.2.Image, IdentityFile := kv.2.IdentityFile }

/-- The Go `convertYAMLConfToTestCases`: one `runtime.TestCase` per entry of
`conf.Tests`. -/
def convertYAMLConfToTestCases (conf : YAMLConfig ExpectedOut) : List TestCase :=
  conf.Tests.map fun kt =>
    { Title := kt.2.Title,
      Command := { Cmd := kt.2.Command, InheritEnv := kt.2.Config.InheritEnv,
                   Env := kt.2.Config.Env, Dir := kt.2.Config.Dir,
                   Timeout := kt.2.Config.Timeout, Retries := kt.2.Config.Retries,
                   Interval := kt.2.Config.Interval },
      Expected := { ExitCode := kt.2.ExitCode, Stdout := kt.2.Stdout, Stderr := kt.2.Stderr },
      Nodes := kt.2.Config.Nodes }

/-- The Go `ParseYAML`, from the decoded document on: `yaml.UnmarshalStrict`
decodes the bytes into `params` and runs `UnmarshalYAML` on them; a panic
there is a panic of `ParseYAML`, and no `Suite` is returned. -/
def ParseYAML (fmtOther : Value → String) (content : YAMLConfig Value) : Option Suite := do
  let yamlConfig ← UnmarshalYAML fmtOther content
  pure { TestCases := convertYAMLConfToTestCases yamlConfig,
         Config := { InheritEnv := yamlConfig.Config.InheritEnv, Env := yamlConfig.Config.Env,
                     Dir := yamlConfig.Config.Dir, Timeout := yamlConfig.Config.Timeout,
                     Retries := yamlConfig.Config.Retries,
                     Interval := yamlConfig.Config.Interval,
                     Nodes := yamlConfig.Config.Nodes },
         Nodes := convertNodes yamlConfig.Nodes }

/-- The authored value of a list-valued key: nil when the key is not set. -/
def authoredList : Option (List String) → Value
  | none => .null
  | some xs => .list (xs.map Value.str)

/-- The authored value of a string-valued key: nil when the key is not set. -/
def authoredString : Option String → Value
  | none => .null
  | some s => .str s

/-- The authored value of an integer-valued key: nil when the key is not set. -/
def authoredInt : Option Int → Value
  | none => .null
  | some n => .int n

/-- The authored value of the lines key: nil when the key is not set. -/
def authoredLines : Option (List (Int × String)) → Value
  | none => .null
  | some l => .map (l.map fun kv => (Value.int kv.1, Value.str kv.2))

/-- The authored value of the json key: nil when the key is not set. -/
def authoredJSON : Option (List (String × String)) → Value
  | none => .null
  | some l => .map (l.map fun kv => (Value.str kv.1, Value.str kv.2))

/-! ## Lemmas on the primitives -/

@[simp] theorem entries_none {α : Type} : entries (none : Option (List α)) = [] := rfl

@[simp] theorem entries_some {α : Type} (l : List α) : entries (some l) = l := rfl

theorem isNewline_iff (c : Char) : isNewline c = true ↔ c = '\n' := by
  simp [isNewline]

/-- A string with no newline at either end is left alone by `trimNewlines`. -/
theorem trimNewlines_eq_self (s : String) (hhead : s.toList.head? ≠ some '\n')
    (hlast : s.toList.getLast? ≠ some '\n') : trimNewlines s = s := by
  obtain ⟨l⟩ := s
  have h1 : l.dropWhile isNewline = l := by
    cases l with
    | nil => rfl
    | cons a t =>
      have ha : ¬ isNewline a = true := by
        rw [isNewline_iff]
        intro h
        exact hhead (by simp [h])
      exact List.dropWhile_cons_of_neg ha
  have h2 : l.rdropWhile isNewline = l := by
    rw [List.rdropWhile_eq_self_iff]
    intro hl
    rw [isNewline_iff]
    intro h
    apply hlast
    show l.getLast? = some '\n'
    rw [List.getLast?_eq_getLast l hl, h]
  show String.mk ((l.dropWhile isNewline).rdropWhile isNewline) = String.mk l
  rw [h1, h2]

/-- Trimming twice is trimming once. -/
theorem trimNewlines_idem (s : String) : trimNewlines (trimNewlines s) = trimNewlines s := by
  obtain ⟨l⟩ := s
  show String.mk (((((l.dropWhile isNewline).rdropWhile isNewline)).dropWhile
      isNewline).rdropWhile isNewline)
    = String.mk ((l.dropWhile isNewline).rdropWhile isNewline)
  have hd : ((l.dropWhile isNewline).rdropWhile isNewline).dropWhile isNewline
      = (l.dropWhile isNewline).rdropWhile isNewline := by
    have hpre : (l.dropWhile isNewline).rdropWhile isNewline <+: l.dropWhile isNewline :=
      List.rdropWhile_prefix isNewline _
    have hself : (l.dropWhile isNewline).dropWhile isNewline = l.dropWhile isNewline :=
      List.dropWhile_idempotent _ _
    generalize l.dropWhile isNewline = m at hpre hself
    generalize m.rdropWhile isNewline = r at hpre
    obtain ⟨t, rfl⟩ := hpre
    cases r with
    | nil => rfl
    | cons a r' =>
      by_cases ha : isNewline a = true
      · exfalso
        have hlen := congrArg List.length hself
        simp only [List.cons_append, List.dropWhile_cons_of_pos ha] at hlen
        have hle := (List.dropWhile_suffix (l := r' ++ t) isNewline).length_le
        simp only [List.length_cons] at hlen
        omega
      · exact List.dropWhile_cons_of_neg ha
  rw [hd, List.rdropWhile_idempotent]

/-- What `toString` returns is trimmed. -/
theorem trimNewlines_toString (fmtOther : Value → String) (v : Value) :
    trimNewlines (Commander.toString fmtOther v) = Commander.toString fmtOther v :=
  trimNewlines_idem _

/-- A string without any newline is left alone by `trimNewlines`. -/
theorem trimNewlines_of_not_mem (s : String) (h : '\n' ∉ s.toList) : trimNewlines s = s := by
  apply trimNewlines_eq_self
  · intro hh
    exact h (List.mem_of_mem_head? hh)
  · intro hl
    exact h (List.mem_of_mem_getLast? hl)

/-- The append loop: nothing is appended to the slice when there are no values,
otherwise the converted values follow the entries already there. -/
theorem appendAll_eq (fmtOther : Value → String) (values : List Value)
    (s : Option (List String)) :
    appendAll fmtOther s values
      = if values.isEmpty then s
        else some (entries s ++ values.map (Commander.toString fmtOther)) := by
  induction values generalizing s with
  | nil => simp [appendAll]
  | cons v rest ih =>
    have h := ih (goAppend s (Commander.toString fmtOther v))
    simp only [appendAll, List.foldl_cons] at h ⊢
    rw [h]
    cases rest with
    | nil => simp [goAppend, entries]
    | cons w rest => simp [goAppend, entries]

/-- Converting a string that is already trimmed gives it back. -/
theorem toString_str (fmtOther : Value → String) (s : String) (h : trimNewlines s = s) :
    Commander.toString fmtOther (.str s) = s := by
  simp [Commander.toString, sprintS, h]

/-- The append loop over trimmed strings, from the nil slice. -/
theorem appendAll_strs (fmtOther : Value → String) (xs : List String)
    (h : ∀ s ∈ xs, trimNewlines s = s) :
    appendAll fmtOther none (xs.map Value.str) = if xs = [] then none else some xs := by
  rw [appendAll_eq]
  by_cases hx : xs = []
  · simp [hx]
  · have hm : List.map (Commander.toString fmtOther) (xs.map Value.str) = xs := by
      rw [List.map_map]
      conv_rhs => rw [← List.map_id xs]
      apply List.map_congr_left
      intro a ha
      simpa using toString_str fmtOther a (h a ha)
    simp [hx, hm]

/-- Writing a key that the map does not hold adds the entry at the end. -/
theorem mapSet_of_not_mem {κ ν : Type} [DecidableEq κ] (m : List (κ × ν)) (k : κ) (v : ν)
    (h : k ∉ m.map Prod.fst) : mapSet m k v = m ++ [(k, v)] := by
  induction m with
  | nil => rfl
  | cons kv rest ih =>
    obtain ⟨k', v'⟩ := kv
    have hk : ¬ k' = k := by
      intro hk
      exact h (by simp [hk])
    have hr : k ∉ rest.map Prod.fst := by
      intro hr
      exact h (by simp only [List.map_cons, List.mem_cons]; exact Or.inr hr)
    simp [mapSet, hk, ih hr]

/-- The keys of a map after a write: unchanged when the key was there, the new
key at the end otherwise. -/
theorem mapSet_keys {κ ν : Type} [DecidableEq κ] (m : List (κ × ν)) (k : κ) (v : ν) :
    (mapSet m k v).map Prod.fst
      = if k ∈ m.map Prod.fst then m.map Prod.fst else m.map Prod.fst ++ [k] := by
  induction m with
  | nil => simp [mapSet]
  | cons kv rest ih =>
    obtain ⟨k', v'⟩ := kv
    by_cases hk : k' = k
    · simp [mapSet, hk]
    · have hk' : ¬ k = k' := fun h => hk h.symm
      by_cases hr : k ∈ rest.map Prod.fst
      · simp only [mapSet, hk, if_false, List.map_cons, ih, hr, if_true, List.mem_cons, or_true]
      · simp only [mapSet, hk, if_false, List.map_cons, ih, hr, List.mem_cons, hk', or_self,
          List.cons_append]

/-- A write keeps the keys of a map distinct. -/
theorem mapSet_nodup {κ ν : Type} [DecidableEq κ] (m : List (κ × ν)) (k : κ) (v : ν)
    (h : (m.map Prod.fst).Nodup) : ((mapSet m k v).map Prod.fst).Nodup := by
  rw [mapSet_keys]
  by_cases hk : k ∈ m.map Prod.fst
  · simpa [hk] using h
  · simp only [hk, if_false]
    exact List.Nodup.append h (List.nodup_singleton k) (by simpa using hk)

/-- Every entry of a map after a write is an old entry or the written one. -/
theorem mem_mapSet {κ ν : Type} [DecidableEq κ] (m : List (κ × ν)) (k : κ) (v : ν)
    (x : κ × ν) (hx : x ∈ mapSet m k v) : x ∈ m ∨ x = (k, v) := by
  induction m with
  | nil =>
    simp only [mapSet, List.mem_singleton] at hx
    exact Or.inr hx
  | cons kv rest ih =>
    obtain ⟨k', v'⟩ := kv
    by_cases hk : k' = k
    · simp only [mapSet, hk, if_true, List.mem_cons] at hx
      rcases hx with hx | hx
      · exact Or.inr hx
      · exact Or.inl (List.mem_cons_of_mem _ hx)
    · simp only [mapSet, hk, if_false, List.mem_cons] at hx
      rcases hx with hx | hx
      · exact Or.inl (by simp [hx])
      · rcases ih hx with h | h
        · exact Or.inl (List.mem_cons_of_mem _ h)
        · exact Or.inr h

/-- The lines loop keeps the keys distinct and the stored strings trimmed. -/
theorem fillLines_inv (fmtOther : Value → String) (l : List (Value × Value))
    (acc r : List (Int × String)) (h : fillLines fmtOther l acc = some r)
    (hkeys : (acc.map Prod.fst).Nodup) (htrim : ∀ kv ∈ acc, trimNewlines kv.2 = kv.2) :
    (r.map Prod.fst).Nodup ∧ ∀ kv ∈ r, trimNewlines kv.2 = kv.2 := by
  induction l generalizing acc with
  | nil =>
    simp only [fillLines, Option.some.injEq] at h
    subst h
    exact ⟨hkeys, htrim⟩
  | cons kv rest ih =>
    obtain ⟨k, v⟩ := kv
    cases k with
    | int n =>
      simp only [fillLines] at h
      refine ih _ h (mapSet_nodup acc n _ hkeys) ?_
      intro x hx
      rcases mem_mapSet acc n _ x hx with hx | hx
      · exact htrim x hx
      · rw [hx]
        exact trimNewlines_toString fmtOther v
    | _ => simp [fillLines] at h

/-- The json loop keeps the keys distinct. -/
theorem fillJSON_inv (l : List (Value × Value)) (acc r : List (String × String))
    (h : fillJSON l acc = some r) (hkeys : (acc.map Prod.fst).Nodup) :
    (r.map Prod.fst).Nodup := by
  induction l generalizing acc with
  | nil =>
    simp only [fillJSON, Option.some.injEq] at h
    subst h
    exact hkeys
  | cons kv rest ih =>
    obtain ⟨k, v⟩ := kv
    cases k with
    | str a =>
      cases v with
      | str b =>
        simp only [fillJSON] at h
        exact ih _ h (mapSet_nodup acc a b hkeys)
      | _ => simp [fillJSON] at h
    | _ => simp [fillJSON] at h

/-- The strings stored by the append loop are trimmed when those already in
the slice are. -/
theorem appendAll_trimmed (fmtOther : Value → String) (values : List Value)
    (s : Option (List String)) (hs : ∀ x ∈ entries s, trimNewlines x = x) :
    ∀ x ∈ entries (appendAll fmtOther s values), trimNewlines x = x := by
  rw [appendAll_eq]
  cases values with
  | nil => simpa using hs
  | cons v rest =>
    intro x hx
    simp only [List.isEmpty_cons, Bool.false_eq_true, if_false, entries_some,
      List.mem_append, List.mem_map] at hx
    rcases hx with hx | ⟨w, _, rfl⟩
    · exact hs x hx
    · exact trimNewlines_toString fmtOther w

/-- The append loop from the nil slice never leaves an empty non-nil slice. -/
theorem appendAll_ne_some_nil (fmtOther : Value → String) (values : List Value) :
    appendAll fmtOther none values ≠ some [] := by
  rw [appendAll_eq]
  cases values with
  | nil => simp
  | cons v rest => simp

/-- A slice or map that is not the empty non-nil one is determined by its entries. -/
theorem eq_of_entries {α : Type} [DecidableEq α] (s : Option (List α)) (h : s ≠ some []) :
    (if entries s = [] then none else some (entries s)) = s := by
  cases s with
  | none => simp
  | some l =>
    have hl : l ≠ [] := fun hl => h (by rw [hl])
    simp [hl]

/-- A slice with entries is non-nil. -/
theorem some_of_entries {α : Type} (s : Option (List α)) (l : List α)
    (h : entries s = l) (hl : l ≠ []) : s = some l := by
  cases s with
  | none => exact absurd h.symm hl
  | some m => exact congrArg some h

/-- A slice or map without entries that is not the empty non-nil one is nil. -/
theorem none_of_entries {α : Type} (s : Option (List α))
    (h : entries s = []) (hs : s ≠ some []) : s = none := by
  cases s with
  | none => rfl
  | some m => exact absurd (congrArg some h) hs

/-- A non-nil slice or map without entries is the empty one. -/
theorem some_nil_of_entries {α : Type} (s : Option (List α))
    (h : entries s = []) (hs : s ≠ none) : s = some [] := by
  cases s with
  | none => exact absurd rfl hs
  | some m => exact congrArg some h

/-- Every record built by `convertToExpectedOut` is canonical. -/
theorem canonical_of_convert (fmtOther : Value → String) (v : Value) (e : ExpectedOut)
    (h : convertToExpectedOut fmtOther v = some e) : Canonical e := by
  cases v with
  | null =>
    simp only [convertToExpectedOut, Option.some.injEq] at h
    subst h
    constructor <;> simp
    rfl
  | str s =>
    simp only [convertToExpectedOut, Option.some.injEq] at h
    subst h
    constructor <;> simp [trimNewlines_toString]
    rfl
  | map kvs =>
    simp only [convertToExpectedOut] at h
    split at h
    · simp only [Option.bind_eq_bind, Option.bind_eq_some, Option.pure_def,
        Option.some.injEq] at h
      obtain ⟨c, hc, n, hn, ls, hls, nc, hnc, j, hj, rfl⟩ := h
      have hlist : ∀ (x : Value) (r : Option (List String)),
          parseList fmtOther none x = some r →
            (∀ a ∈ entries r, trimNewlines a = a) ∧ r ≠ some [] := by
        intro x r hx
        cases x with
        | null =>
          simp only [parseList, Option.some.injEq] at hx
          subst hx
          simp
        | list values =>
          simp only [parseList, Option.some.injEq] at hx
          subst hx
          exact ⟨appendAll_trimmed fmtOther values none (by simp),
            appendAll_ne_some_nil fmtOther values⟩
        | _ => simp [parseList] at hx
      have hlines : ((entries ls).map Prod.fst).Nodup ∧
          ∀ kv ∈ entries ls, trimNewlines kv.2 = kv.2 := by
        cases hx : index kvs "lines" with
        | null =>
          rw [hx] at hls
          simp only [parseLines, Option.some.injEq] at hls
          subst hls
          simp
        | map l =>
          rw [hx] at hls
          simp only [parseLines, Option.map_eq_some'] at hls
          obtain ⟨r, hr, rfl⟩ := hls
          exact fillLines_inv fmtOther l [] r hr (by simp) (by simp)
        | _ =>
          rw [hx] at hls
          simp [parseLines] at hls
      have hjson : ((entries j).map Prod.fst).Nodup ∧ j ≠ none := by
        cases hx : index kvs "json" with
        | null =>
          rw [hx] at hj
          simp only [parseJSON, Option.some.injEq] at hj
          subst hj
          simp
        | map l =>
          rw [hx] at hj
          simp only [parseJSON, Option.map_eq_some'] at hj
          obtain ⟨r, hr, rfl⟩ := hj
          exact ⟨fillJSON_inv l _ r hr (by simp), by simp⟩
        | _ =>
          rw [hx] at hj
          simp [parseJSON] at hj
      have hex : trimNewlines (parseExactly fmtOther "" (index kvs "exactly"))
          = parseExactly fmtOther "" (index kvs "exactly") := by
        cases index kvs "exactly" with
        | null => rfl
        | _ => exact trimNewlines_toString fmtOther _
      exact ⟨(hlist _ c hc).1, hlines.2, hlines.1, hex, (hlist _ nc hnc).1, hjson.1,
        (hlist _ c hc).2, (hlist _ nc hnc).2, hjson.2⟩
    · simp at h
  | _ => simp [convertToExpectedOut] at h

/-- Looking a key up in a map that starts with an optional field. -/
theorem index_field_append (c : Prop) [Decidable c] (k key : String) (x : Value)
    (rest : List (Value × Value)) :
    index ((if c then [] else [(Value.str k, x)]) ++ rest) key
      = if c then index rest key else if k = key then x else index rest key := by
  by_cases hc : c <;> simp [hc, index]

/-- Looking a key up in a map that is one optional field. -/
theorem index_field (c : Prop) [Decidable c] (k key : String) (x : Value) :
    index (if c then [] else [(Value.str k, x)]) key
      = if c then .null else if k = key then x else .null := by
  by_cases hc : c <;> simp [hc, index]

/-- An optional field under a recognised key passes the key check. -/
theorem all_field (c : Prop) [Decidable c] (k : String) (x : Value)
    (hk : k ∈ allowedKeys) :
    (if c then [] else [(Value.str k, x)]).all (fun kv => keyAllowed kv.1) = true := by
  by_cases hc : c <;> simp [hc, keyAllowed, hk]

/-- The contains / not-contains block reads back an authored list of trimmed strings. -/
theorem parseList_field (fmtOther : Value → String) (xs : List String)
    (h : ∀ s ∈ xs, trimNewlines s = s) :
    parseList fmtOther none (if xs = [] then .null else .list (xs.map Value.str))
      = some (if xs = [] then none else some xs) := by
  by_cases hx : xs = []
  · simp [hx, parseList]
  · simp [hx, parseList, appendAll_strs fmtOther xs h]

/-- The exactly block reads back an authored trimmed string. -/
theorem parseExactly_field (fmtOther : Value → String) (s : String)
    (h : trimNewlines s = s) :
    parseExactly fmtOther "" (if s = "" then .null else .str s) = s := by
  by_cases hs : s = ""
  · simp [hs, parseExactly]
  · simp [hs, parseExactly, toString_str fmtOther s h]

/-- The line-count block reads back an authored count. -/
theorem parseLineCount_field (n : Int) :
    parseLineCount 0 (if n = 0 then .null else .int n) = some n := by
  by_cases hn : n = 0
  · simp [hn, parseLineCount]
  · simp [hn, parseLineCount]

/-- The lines loop reads back authored lines with distinct keys and trimmed
strings, after the entries already in the map. -/
theorem fillLines_authored (fmtOther : Value → String) (l acc : List (Int × String))
    (hkeys : (acc.map Prod.fst ++ l.map Prod.fst).Nodup)
    (htrim : ∀ kv ∈ l, trimNewlines kv.2 = kv.2) :
    fillLines fmtOther (l.map fun kv => (Value.int kv.1, Value.str kv.2)) acc
      = some (acc ++ l) := by
  induction l generalizing acc with
  | nil => simp [fillLines]
  | cons kv rest ih =>
    obtain ⟨k, v⟩ := kv
    have hk : k ∉ acc.map Prod.fst := by
      intro hk
      exact List.disjoint_of_nodup_append hkeys hk (by simp)
    have hv : Commander.toString fmtOther (.str v) = v :=
      toString_str fmtOther v (htrim (k, v) (by simp))
    have hkeys' : ((acc ++ [(k, v)]).map Prod.fst ++ rest.map Prod.fst).Nodup := by
      simpa using hkeys
    simp only [List.map_cons, fillLines, hv, mapSet_of_not_mem acc k v hk]
    rw [ih (acc ++ [(k, v)]) hkeys' (fun kv hkv => htrim kv (List.mem_cons_of_mem _ hkv))]
    simp

/-- The json loop reads back authored entries with distinct keys, after the
entries already in the map. -/
theorem fillJSON_authored (l acc : List (String × String))
    (hkeys : (acc.map Prod.fst ++ l.map Prod.fst).Nodup) :
    fillJSON (l.map fun kv => (Value.str kv.1, Value.str kv.2)) acc = some (acc ++ l) := by
  induction l generalizing acc with
  | nil => simp [fillJSON]
  | cons kv rest ih =>
    obtain ⟨k, v⟩ := kv
    have hk : k ∉ acc.map Prod.fst := by
      intro hk
      exact List.disjoint_of_nodup_append hkeys hk (by simp)
    have hkeys' : ((acc ++ [(k, v)]).map Prod.fst ++ rest.map Prod.fst).Nodup := by
      simpa using hkeys
    simp only [List.map_cons, fillJSON, mapSet_of_not_mem acc k v hk]
    rw [ih (acc ++ [(k, v)]) hkeys']
    simp

/-- The lines block reads back the authored lines of a canonical record. -/
theorem parseLines_field (fmtOther : Value → String) (l : List (Int × String))
    (hkeys : (l.map Prod.fst).Nodup) (htrim : ∀ kv ∈ l, trimNewlines kv.2 = kv.2) :
    parseLines fmtOther none
        (if l = [] then .null else .map (l.map fun kv => (Value.int kv.1, Value.str kv.2)))
      = some (if l = [] then none else some l) := by
  by_cases hl : l = []
  · simp [hl, parseLines]
  · simp [hl, parseLines, fillLines_authored fmtOther l [] (by simpa using hkeys) htrim]

/-- The json block reads back the authored json entries of a canonical record. -/
theorem parseJSON_field (l : List (String × String)) (hkeys : (l.map Prod.fst).Nodup) :
    parseJSON (some [])
        (if l = [] then .null else .map (l.map fun kv => (Value.str kv.1, Value.str kv.2)))
      = some (some l) := by
  by_cases hl : l = []
  · simp [hl, parseJSON]
  · simp [hl, parseJSON, fillJSON_authored l [] (by simpa using hkeys)]

/-- Normalising the authored form of a canonical structured record gives a
record with the same entries. -/
theorem convert_authored_structured (fmtOther : Value → String) (out : ExpectedOut)
    (hc : Canonical out) :
    ∃ e, convertToExpectedOut fmtOther (authored (.structured out)) = some e ∧
      sameEntries e out ∧ (out.Lines ≠ some [] → e = out) := by
  refine ⟨{ Contains := if entries out.Contains = [] then none else some (entries out.Contains),
            Lines := if entries out.Lines = [] then none else some (entries out.Lines),
            Exactly := out.Exactly, LineCount := out.LineCount,
            NotContains :=
              if entries out.NotContains = [] then none else some (entries out.NotContains),
            JSON := some (entries out.JSON) }, ?_, ?_⟩
  · have hall : (listField "contains" (entries out.Contains)
        ++ linesField "lines" (entries out.Lines)
        ++ stringField "exactly" out.Exactly
        ++ intField "line-count" out.LineCount
        ++ listField "not-contains" (entries out.NotContains)
        ++ jsonField "json" (entries out.JSON)).all (fun kv => keyAllowed kv.1) = true := by
      simp only [List.all_append, listField, linesField, stringField, intField, jsonField,
        Bool.and_eq_true]
      refine ⟨⟨⟨⟨⟨?_, ?_⟩, ?_⟩, ?_⟩, ?_⟩, ?_⟩ <;> exact all_field _ _ _ (by decide)
    simp only [authored, convertToExpectedOut, hall, if_true]
    simp only [listField, linesField, stringField, intField, jsonField, List.append_assoc,
      index_field_append, index_field]
    simp only [String.reduceEq, if_false, if_true, ite_self]
    simp [parseList_field fmtOther _ hc.contains, parseList_field fmtOther _ hc.notContains,
      parseExactly_field fmtOther _ hc.exactly, parseLineCount_field,
      parseLines_field fmtOther _ hc.linesKeys hc.linesTrimmed,
      parseJSON_field _ hc.jsonKeys]
  · refine ⟨⟨?_, ?_, rfl, rfl, ?_, rfl⟩, ?_⟩
    · by_cases h : entries out.Contains = [] <;> simp [h]
    · by_cases h : entries out.Lines = [] <;> simp [h]
    · by_cases h : entries out.NotContains = [] <;> simp [h]
    · intro hlines
      rw [eq_of_entries _ hc.containsNil, eq_of_entries _ hlines,
        eq_of_entries _ hc.notContainsNil]
      have hj : some (entries out.JSON) = out.JSON := by
        cases hjs : out.JSON with
        | none => exact absurd hjs hc.jsonMade
        | some j => rfl
      rw [hj]

/-- The loop body of the tests loop, once both assertion values convert. -/
theorem loadTest_eq (fmtOther : Value → String) (globalConf : YAMLTestConfig) (k : String)
    (v : YAMLTest Value) (out err : ExpectedOut)
    (hout : convertToExpectedOut fmtOther v.Stdout = some out)
    (herr : convertToExpectedOut fmtOther v.Stderr = some err) :
    loadTest fmtOther globalConf k v
      = some { Title := k, Command := if v.Command = "" then k else v.Command,
               ExitCode := v.ExitCode, Stdout := out, Stderr := err,
               Config := mergeConfigs v.Config globalConf } := by
  simp only [loadTest, hout, herr, Option.bind_eq_bind, Option.some_bind, Option.pure_def]
  by_cases hc : v.Command = "" <;> simp [hc]

/-- The tests loop over entries with distinct keys, none of them in the map yet:
when every body succeeds, the loop succeeds and adds one test per entry, in
order, each under its key. -/
theorem loadTests_some (fmtOther : Value → String) (globalConf : YAMLTestConfig)
    (l : List (String × YAMLTest Value)) (acc : List (String × YAMLTest ExpectedOut))
    (hkeys : (acc.map Prod.fst ++ l.map Prod.fst).Nodup)
    (hbody : ∀ kv ∈ l, (loadTest fmtOther globalConf kv.1 kv.2).isSome) :
    ∃ ts, loadTests fmtOther globalConf l acc = some (acc ++ ts) ∧
      List.Forall₂ (fun kv kt => kt.1 = kv.1 ∧
        loadTest fmtOther globalConf kv.1 kv.2 = some kt.2) l ts := by
  induction l generalizing acc with
  | nil => exact ⟨[], by simp [loadTests], List.Forall₂.nil⟩
  | cons kv rest ih =>
    obtain ⟨k, v⟩ := kv
    obtain ⟨t, ht⟩ := Option.isSome_iff_exists.mp (hbody (k, v) (by simp))
    have hk : k ∉ acc.map Prod.fst := by
      intro hk
      have := List.disjoint_of_nodup_append hkeys hk
      exact this (by simp)
    have hkeys' : (((acc ++ [(k, t)]).map Prod.fst) ++ rest.map Prod.fst).Nodup := by
      simpa using hkeys
    obtain ⟨ts, hts, hrel⟩ := ih (acc ++ [(k, t)]) hkeys'
      (fun kv hkv => hbody kv (List.mem_cons_of_mem _ hkv))
    refine ⟨(k, t) :: ts, ?_, List.Forall₂.cons ⟨rfl, ht⟩ hrel⟩
    simp only at ht
    simp [loadTests, ht, mapSet_of_not_mem acc k t hk, hts]

/-- Each left element of two lists related pointwise has a related partner. -/
theorem forall₂_mem_left {α β : Type} {R : α → β → Prop} {l : List α} {l' : List β}
    (h : List.Forall₂ R l l') (a : α) (ha : a ∈ l) : ∃ b ∈ l', R a b := by
  induction h with
  | nil => cases ha
  | cons hab _ ih =>
    rcases List.mem_cons.mp ha with rfl | ha
    · exact ⟨_, List.mem_cons_self _ _, hab⟩
    · obtain ⟨b, hb, hr⟩ := ih ha
      exact ⟨b, List.mem_cons_of_mem _ hb, hr⟩

/-- Reading a map after a write. -/
theorem mapGet_mapSet {κ ν : Type} [DecidableEq κ] (m : List (κ × ν)) (k k' : κ) (v : ν) :
    mapGet (mapSet m k v) k' = if k = k' then some v else mapGet m k' := by
  induction m with
  | nil => simp [mapSet, mapGet]
  | cons kv rest ih =>
    obtain ⟨a, b⟩ := kv
    by_cases ha : a = k
    · subst ha
      by_cases hk : a = k' <;> simp [mapSet, mapGet, hk]
    · by_cases hak : a = k'
      · subst hak
        have hka : ¬ k = a := fun h => ha h.symm
        simp [mapSet, mapGet, ha, hka]
      · simp [mapSet, mapGet, ha, hak, ih]

/-- A key is unbound exactly when it is not among the keys. -/
theorem mapGet_eq_none_iff {κ ν : Type} [DecidableEq κ] (m : List (κ × ν)) (k : κ) :
    mapGet m k = none ↔ k ∉ m.map Prod.fst := by
  induction m with
  | nil => simp [mapGet]
  | cons kv rest ih =>
    obtain ⟨a, b⟩ := kv
    by_cases ha : a = k
    · simp [mapGet, ha]
    · have hka : ¬ k = a := fun h => ha h.symm
      simp [mapGet, ha, hka, ih]

/-- Reading a map after the copy loop `for k, v := range l { m[k] = v }` over a
map `l` with distinct keys: the binding of `l` when there is one, the old
binding otherwise. -/
theorem mapGet_foldl_mapSet {κ ν : Type} [DecidableEq κ] (l m : List (κ × ν)) (k : κ)
    (hl : (l.map Prod.fst).Nodup) :
    mapGet (l.foldl (fun env kv => mapSet env kv.1 kv.2) m) k
      = match mapGet l k with
        | some v => some v
        | none => mapGet m k := by
  induction l generalizing m with
  | nil => simp [mapGet]
  | cons kv rest ih =>
    obtain ⟨a, b⟩ := kv
    simp only [List.map_cons, List.nodup_cons] at hl
    rw [List.foldl_cons, ih (mapSet m a b) hl.2, mapGet_mapSet]
    by_cases hk : a = k
    · subst hk
      have hnone : mapGet rest a = none := (mapGet_eq_none_iff rest a).mpr hl.1
      simp [mapGet, hnone]
    · simp [mapGet, hk]

/-- The copy loop keeps the keys of the target map distinct. -/
theorem foldl_mapSet_nodup {κ ν : Type} [DecidableEq κ] (l m : List (κ × ν))
    (hm : (m.map Prod.fst).Nodup) :
    ((l.foldl (fun env kv => mapSet env kv.1 kv.2) m).map Prod.fst).Nodup := by
  induction l generalizing m with
  | nil => exact hm
  | cons kv rest ih => exact ih _ (mapSet_nodup m kv.1 kv.2 hm)

/-- The copy loop keeps every key the target map had. -/
theorem foldl_mapSet_keys {κ ν : Type} [DecidableEq κ] (l m : List (κ × ν)) (k : κ)
    (hk : k ∈ m.map Prod.fst) :
    k ∈ (l.foldl (fun env kv => mapSet env kv.1 kv.2) m).map Prod.fst := by
  induction l generalizing m with
  | nil => exact hk
  | cons kv rest ih =>
    apply ih
    rw [mapSet_keys]
    by_cases h : kv.1 ∈ m.map Prod.fst
    · simpa [h] using hk
    · simp only [h, if_false, List.mem_append]
      exact Or.inl hk

/-- The fields of a merged configuration, one by one. -/
theorem mergeConfigs_fields (localConf globalConf : YAMLTestConfig) :
    (mergeConfigs localConf globalConf).Env
        = mergeEnvironmentVariables globalConf localConf ∧
      (mergeConfigs localConf globalConf).Dir
        = (if localConf.Dir ≠ "" then localConf.Dir else globalConf.Dir) ∧
      (mergeConfigs localConf globalConf).Timeout
        = (if localConf.Timeout ≠ "" then localConf.Timeout else globalConf.Timeout) ∧
      (mergeConfigs localConf globalConf).Retries
        = (if localConf.Retries ≠ 0 then localConf.Retries else globalConf.Retries) ∧
      (mergeConfigs localConf globalConf).Interval
        = (if localConf.Interval ≠ "" then localConf.Interval else globalConf.Interval) ∧
      (mergeConfigs localConf globalConf).InheritEnv
        = (localConf.InheritEnv || globalConf.InheritEnv) ∧
      (mergeConfigs localConf globalConf).Nodes
        = (if localConf.Nodes ≠ [] then localConf.Nodes else globalConf.Nodes) := by
  by_cases h1 : localConf.Dir = "" <;> by_cases h2 : localConf.Timeout = "" <;>
    by_cases h3 : localConf.Retries = 0 <;> by_cases h4 : localConf.Interval = "" <;>
    by_cases h5 : localConf.InheritEnv = true <;> by_cases h6 : localConf.Nodes = [] <;>
    simp [mergeConfigs, h1, h2, h3, h4, h5, h6]

/-- The loop body of the tests loop succeeds exactly when both assertion values
convert, and then builds the test from them. -/
theorem loadTest_eq_some (fmtOther : Value → String) (globalConf : YAMLTestConfig)
    (k : String) (v : YAMLTest Value) (t : YAMLTest ExpectedOut)
    (h : loadTest fmtOther globalConf k v = some t) :
    ∃ out err, convertToExpectedOut fmtOther v.Stdout = some out ∧
      convertToExpectedOut fmtOther v.Stderr = some err ∧
      t = { Title := k, Command := if v.Command = "" then k else v.Command,
            ExitCode := v.ExitCode, Stdout := out, Stderr := err,
            Config := mergeConfigs v.Config globalConf } := by
  cases hout : convertToExpectedOut fmtOther v.Stdout with
  | none => simp [loadTest, hout] at h
  | some out =>
    cases herr : convertToExpectedOut fmtOther v.Stderr with
    | none => simp [loadTest, hout, herr] at h
    | some err =>
      rw [loadTest_eq fmtOther globalConf k v out err hout herr] at h
      exact ⟨out, err, rfl, rfl, (Option.some.inj h).symm⟩

/-- The loop body of the tests loop panics when one of the two assertion values
is rejected. -/
theorem loadTest_eq_none (fmtOther : Value → String) (globalConf : YAMLTestConfig)
    (k : String) (v : YAMLTest Value)
    (h : convertToExpectedOut fmtOther v.Stdout = none ∨
      convertToExpectedOut fmtOther v.Stderr = none) :
    loadTest fmtOther globalConf k v = none := by
  rcases h with h | h
  · simp [loadTest, h]
  · cases hout : convertToExpectedOut fmtOther v.Stdout <;> simp [loadTest, h, hout]

/-- The tests loop panics as soon as one body panics. -/
theorem loadTests_eq_none (fmtOther : Value → String) (globalConf : YAMLTestConfig)
    (l : List (String × YAMLTest Value)) (acc : List (String × YAMLTest ExpectedOut))
    (h : ∃ kv ∈ l, loadTest fmtOther globalConf kv.1 kv.2 = none) :
    loadTests fmtOther globalConf l acc = none := by
  induction l generalizing acc with
  | nil =>
    obtain ⟨kv, hkv, _⟩ := h
    cases hkv
  | cons head rest ih =>
    obtain ⟨k, v⟩ := head
    cases hb : loadTest fmtOther globalConf k v with
    | none => simp [loadTests, hb]
    | some t =>
      obtain ⟨kv, hkv, hnone⟩ := h
      rcases List.mem_cons.mp hkv with rfl | hkv
      · rw [hb] at hnone
        cases hnone
      · simp only [loadTests, hb, Option.bind_eq_bind, Option.some_bind]
        exact ih _ ⟨kv, hkv, hnone⟩

/-- When the tests loop succeeds, every body succeeded. -/
theorem loadTests_bodies (fmtOther : Value → String) (globalConf : YAMLTestConfig)
    (l : List (String × YAMLTest Value)) (acc ts : List (String × YAMLTest ExpectedOut))
    (h : loadTests fmtOther globalConf l acc = some ts) :
    ∀ kv ∈ l, (loadTest fmtOther globalConf kv.1 kv.2).isSome := by
  intro kv hkv
  cases hb : loadTest fmtOther globalConf kv.1 kv.2 with
  | some t => rfl
  | none =>
    rw [loadTests_eq_none fmtOther globalConf l acc ⟨kv, hkv, hb⟩] at h
    cases h

/-- The nodes loop over entries with distinct keys: one node per entry, in
order, each under its key. -/
theorem loadNodes_eq (nodes : List (String × NodeConf))
    (hkeys : (nodes.map Prod.fst).Nodup) :
    loadNodes nodes = nodes.map fun kv => (kv.1, loadNode kv.1 kv.2) := by
  have hgen : ∀ (l acc : List (String × NodeConf)),
      (acc.map Prod.fst ++ l.map Prod.fst).Nodup →
      l.foldl (fun acc kv => mapSet acc kv.1 (loadNode kv.1 kv.2)) acc
        = acc ++ l.map fun kv => (kv.1, loadNode kv.1 kv.2) := by
    intro l
    induction l with
    | nil => intro acc _; simp
    | cons kv rest ih =>
      intro acc hnd
      have hk : kv.1 ∉ acc.map Prod.fst := by
        intro hk
        exact List.disjoint_of_nodup_append hnd hk (by simp)
      have hnd' : ((acc ++ [(kv.1, loadNode kv.1 kv.2)]).map Prod.fst
          ++ rest.map Prod.fst).Nodup := by
        simpa using hnd
      rw [List.foldl_cons, mapSet_of_not_mem acc kv.1 _ hk, ih _ hnd']
      simp
  simpa [loadNodes] using hgen nodes [] (by simpa using hkeys)

/-- What `ParseYAML` returns when it returns: the suite built from the tests
the tests loop produced and from the nodes of the nodes loop. -/
theorem ParseYAML_eq_some (fmtOther : Value → String) (params : YAMLConfig Value)
    (suite : Suite) (h : ParseYAML fmtOther params = some suite) :
    ∃ ts, loadTests fmtOther params.Config params.Tests [] = some ts ∧
      suite.TestCases
        = convertYAMLConfToTestCases
            { Tests := ts, Nodes := loadNodes params.Nodes, Config := params.Config } ∧
      suite.Nodes = convertNodes (loadNodes params.Nodes) := by
  cases hts : loadTests fmtOther params.Config params.Tests [] with
  | none => simp [ParseYAML, UnmarshalYAML, hts] at h
  | some ts =>
    simp only [ParseYAML, UnmarshalYAML, hts, Option.bind_eq_bind, Option.some_bind,
      Option.pure_def, Option.some.injEq] at h
    subst h
    exact ⟨ts, rfl, rfl, rfl⟩

/-- The append loop over authored strings, from the nil slice, stores each of
them trimmed, in order. -/
theorem entries_appendAll_strs (fmtOther : Value → String) (xs : List String) :
    entries (appendAll fmtOther none (xs.map Value.str)) = xs.map trimNewlines := by
  rw [appendAll_eq]
  cases xs with
  | nil => rfl
  | cons x rest =>
    simp [List.map_map, Commander.toString, sprintS, Function.comp_def]

/-- The lines loop over authored lines with distinct keys stores each string
trimmed under its key, after the entries already in the map. -/
theorem fillLines_strs (fmtOther : Value → String) (l acc : List (Int × String))
    (hkeys : (acc.map Prod.fst ++ l.map Prod.fst).Nodup) :
    fillLines fmtOther (l.map fun kv => (Value.int kv.1, Value.str kv.2)) acc
      = some (acc ++ l.map fun kv => (kv.1, trimNewlines kv.2)) := by
  induction l generalizing acc with
  | nil => simp [fillLines]
  | cons kv rest ih =>
    obtain ⟨k, v⟩ := kv
    have hk : k ∉ acc.map Prod.fst := by
      intro hk
      exact List.disjoint_of_nodup_append hkeys hk (by simp)
    have hv : Commander.toString fmtOther (.str v) = trimNewlines v := rfl
    have hkeys' : ((acc ++ [(k, trimNewlines v)]).map Prod.fst ++ rest.map Prod.fst).Nodup := by
      simpa using hkeys
    simp only [List.map_cons, fillLines, hv, mapSet_of_not_mem acc k _ hk]
    rw [ih (acc ++ [(k, trimNewlines v)]) hkeys']
    simp

/-- The contains / not-contains block on the authored value of the key. -/
theorem parseList_authored (fmtOther : Value → String) (xs : Option (List String)) :
    ∃ r, parseList fmtOther none (authoredList xs) = some r ∧
      entries r = (entries xs).map trimNewlines := by
  cases xs with
  | none => exact ⟨none, rfl, rfl⟩
  | some l => exact ⟨_, rfl, entries_appendAll_strs fmtOther l⟩

/-- The exactly block on the authored value of the key. -/
theorem parseExactly_authored (fmtOther : Value → String) (x : Option String) :
    parseExactly fmtOther "" (authoredString x) = trimNewlines (x.getD "") := by
  cases x with
  | none =>
    show "" = trimNewlines ""
    decide
  | some s => rfl

/-- The line-count block on the authored value of the key. -/
theorem parseLineCount_authored (n : Option Int) :
    parseLineCount 0 (authoredInt n) = some (n.getD 0) := by
  cases n with
  | none => rfl
  | some m => rfl

/-- The lines block on the authored value of the key. -/
theorem parseLines_authored (fmtOther : Value → String) (l : Option (List (Int × String)))
    (hkeys : ((entries l).map Prod.fst).Nodup) :
    ∃ r, parseLines fmtOther none (authoredLines l) = some r ∧
      entries r = (entries l).map fun kv => (kv.1, trimNewlines kv.2) := by
  cases l with
  | none => exact ⟨none, rfl, rfl⟩
  | some m =>
    refine ⟨some (m.map fun (kv : Int × String) => (kv.1, trimNewlines kv.2)), ?_, rfl⟩
    simp only [authoredLines, parseLines]
    rw [fillLines_strs fmtOther m [] (by simpa using hkeys)]
    simp

/-- The json block on the authored value of the key. -/
theorem parseJSON_authored (l : Option (List (String × String)))
    (hkeys : ((entries l).map Prod.fst).Nodup) :
    parseJSON (some []) (authoredJSON l) = some (some (entries l)) := by
  cases l with
  | none => rfl
  | some m =>
    simp only [authoredJSON, parseJSON, entries_some]
    rw [fillJSON_authored m [] (by simpa using hkeys)]
    simp

/-- A key outside the list of the key check is refused by `keyAllowed`. -/
theorem keyAllowed_eq_false (k : Value)
    (h : ∀ s ∈ allowedKeys, k ≠ .str s) : keyAllowed k = false := by
  cases k with
  | str s =>
    have hs : s ∉ allowedKeys := fun hmem => h s hmem rfl
    simpa [keyAllowed] using hs
  | _ => rfl

/-! ## Claims -/

/-- C1, counterexample: the authored empty string normalises to the record whose
contains is the single empty string; `convertExpectedOut` returns absent for
it, and absent normalises to the record with no contains entry at all. -/
theorem empty_string_is_not_restored :
    convertToExpectedOut (fun _ => "") (.str "")
        = some { Contains := some [""], JSON := some [] } ∧
      convertExpectedOut { Contains := some [""], JSON := some [] } = .absent ∧
      convertToExpectedOut (fun _ => "") (authored .absent) = some { JSON := some [] } ∧
      ¬ sameEntries { JSON := some [] } { Contains := some [""], JSON := some [] } := by
  refine ⟨?_, ?_, ?_, ?_⟩ <;> decide

/-- C1, amended: for every record `e` that `convertToExpectedOut` produces from an
authored value, provided the contains list of `e` is not the single empty
string, and provided `e` does not carry json entries in a shape that
`convertExpectedOut` collapses (at most one contains entry, and lines,
exactly, line-count and not-contains all unset), normalising the authored form
of `convertExpectedOut e` succeeds and yields a record with the same entries
as `e` in every field; the record is `e` itself unless the lines map of `e` is
present but empty, which comes back nil. -/
theorem normalise_serialise_round_trip (fmtOther : Value → String) (v : Value) (e : ExpectedOut)
    (hv : convertToExpectedOut fmtOther v = some e)
    (hcontains : entries e.Contains ≠ [""])
    (hjson : propertiesAreEmpty e = true → (entries e.Contains).length ≤ 1 →
      entries e.JSON = []) :
    ∃ e', convertToExpectedOut fmtOther (authored (convertExpectedOut e)) = some e' ∧
      sameEntries e' e ∧ (e.Lines ≠ some [] → e' = e) := by
  have hc := canonical_of_convert fmtOther v e hv
  have hprops : propertiesAreEmpty e = true →
      e.Lines = none ∧ e.Exactly = "" ∧ e.LineCount = 0 ∧ e.NotContains = none := by
    intro hp
    simp only [propertiesAreEmpty, Bool.and_eq_true, beq_iff_eq] at hp
    obtain ⟨⟨⟨h1, h2⟩, h3⟩, h4⟩ := hp
    exact ⟨h1, h2, h3, h4⟩
  by_cases hA : (isContainsASingleNonEmptyString e && propertiesAreEmpty e) = true
  · obtain ⟨hs, hp⟩ := Bool.and_eq_true_iff.mp hA
    obtain ⟨hl, hx, hn, hnc⟩ := hprops hp
    obtain ⟨c, hec⟩ : ∃ c, entries e.Contains = [c] := by
      unfold isContainsASingleNonEmptyString at hs
      split at hs
      · exact ⟨_, by assumption⟩
      · simp at hs
    have hj := some_nil_of_entries _ (hjson hp (by simp [hec])) hc.jsonMade
    have hcs := some_of_entries _ _ hec (by simp)
    have htrim : trimNewlines c = c := hc.contains c (by simp [hec])
    have he : e = { Contains := some [c], JSON := some [] } := by
      obtain ⟨c', l, x, n, nc, j⟩ := e
      simp only at hl hx hn hnc hj hcs
      simp [hl, hx, hn, hnc, hj, hcs]
    refine ⟨{ Contains := some [c], JSON := some [] }, ?_, ?_, fun _ => he.symm⟩
    · simp [convertExpectedOut, hA, hec, authored, convertToExpectedOut,
        toString_str fmtOther c htrim]
    · rw [he]
      simp [sameEntries]
  · by_cases hB : ((entries e.Contains).length == 0 && propertiesAreEmpty e) = true
    · obtain ⟨hlen, hp⟩ := Bool.and_eq_true_iff.mp hB
      obtain ⟨hl, hx, hn, hnc⟩ := hprops hp
      have hec : entries e.Contains = [] := by
        simpa using hlen
      have hj := some_nil_of_entries _ (hjson hp (by simp [hec])) hc.jsonMade
      have hcs := none_of_entries _ hec hc.containsNil
      have he : e = { JSON := some [] } := by
        obtain ⟨c', l, x, n, nc, j⟩ := e
        simp only at hl hx hn hnc hj hcs
        simp [hl, hx, hn, hnc, hj, hcs]
      refine ⟨{ JSON := some [] }, ?_, ?_, fun _ => he.symm⟩
      · simp [convertExpectedOut, hA, hcontains, hB, authored, convertToExpectedOut]
      · rw [he]
        simp [sameEntries]
    · have hout : convertExpectedOut e = .structured e := by
        simp [convertExpectedOut, hA, hcontains, hB]
      rw [hout]
      exact convert_authored_structured fmtOther e hc

/-- Witness for C1: the record of `{ contains: [a, b], lines: {1: x}, json: {k: v} }`. -/
theorem normalise_serialise_round_trip_witness :
    ∃ e', convertToExpectedOut (fun _ => "")
        (authored (convertExpectedOut
          { Contains := some ["a", "b"], Lines := some [(1, "x")],
            JSON := some [("k", "v")] })) = some e' ∧
      sameEntries e'
        { Contains := some ["a", "b"], Lines := some [(1, "x")], JSON := some [("k", "v")] } ∧
      ((some [(1, "x")] : Option (List (Int × String))) ≠ some [] →
        e' = { Contains := some ["a", "b"], Lines := some [(1, "x")],
               JSON := some [("k", "v")] }) :=
  normalise_serialise_round_trip (fun _ => "")
    (.map [(.str "contains", .list [.str "a", .str "b"]),
           (.str "lines", .map [(.int 1, .str "x")]),
           (.str "json", .map [(.str "k", .str "v")])])
    { Contains := some ["a", "b"], Lines := some [(1, "x")], JSON := some [("k", "v")] }
    (by decide) (by decide) (by decide)

/-- C2, counterexample: the key `xml` is outside the allowlist {contains, exactly,
line-count, lines, json, not-contains}, yet the object `{ xml: "<a/>" }` is
accepted and yields the all-empty record. -/
theorem xml_key_is_accepted :
    (∀ s ∈ ["contains", "exactly", "line-count", "lines", "json", "not-contains"],
        Value.str "xml" ≠ Value.str s) ∧
      convertToExpectedOut (fun _ => "") (.map [(.str "xml", .str "<a/>")])
        = some { JSON := some [] } := by
  constructor
  · intro s hs h
    injection h with h
    subst h
    revert hs
    decide
  · rfl

/-- C2, amended: an object with at least one key outside {contains, exactly,
line-count, lines, json, xml, not-contains} makes `convertToExpectedOut` panic,
whatever its other keys are. -/
theorem unknown_key_is_rejected (fmtOther : Value → String) (kvs : List (Value × Value))
    (h : ∃ kv ∈ kvs, ∀ s ∈ ["contains", "exactly", "line-count", "lines", "json", "xml",
      "not-contains"], kv.1 ≠ Value.str s) :
    convertToExpectedOut fmtOther (.map kvs) = none := by
  obtain ⟨kv, hmem, hkey⟩ := h
  have hall : kvs.all (fun kv => keyAllowed kv.1) = false := by
    rw [List.all_eq_false]
    exact ⟨kv, hmem, by simp [keyAllowed_eq_false kv.1 hkey]⟩
  simp [convertToExpectedOut, hall]

/-- Witness for C2: `{ contains: [a], foo: 1 }` is rejected although `contains` is
a recognised key. -/
theorem unknown_key_is_rejected_witness :
    convertToExpectedOut (fun _ => "")
      (.map [(.str "contains", .list [.str "a"]), (.str "foo", .int 1)]) = none :=
  unknown_key_is_rejected (fun _ => "") _
    ⟨(.str "foo", .int 1), by simp, by
      intro s hs h
      injection h with h
      subst h
      revert hs
      decide⟩

/-- C3, the code at the failing input: the authored string "\nfoo\n" loses its
leading newline as well, where removing the trailing newlines only would
keep "\nfoo". -/
theorem string_loses_leading_newline :
    convertToExpectedOut (fun _ => "") (.str "\nfoo\n")
        = some { Contains := some ["foo"], JSON := some [] } ∧
      trimRightNewlines "\nfoo\n" = "\nfoo" := by
  constructor <;> decide

/-- C4: a non-empty string `s` with no newline at either end normalises to the
record whose only entry is `contains = [s]`, and that record serialises back
to the bare string `s`. -/
theorem single_string_shorthand (fmtOther : Value → String) (s : String)
    (hne : s ≠ "") (hhead : s.toList.head? ≠ some '\n')
    (hlast : s.toList.getLast? ≠ some '\n') :
    convertToExpectedOut fmtOther (.str s)
        = some { Contains := some [s], Lines := none, Exactly := "", LineCount := 0,
                 NotContains := none, JSON := some [] } ∧
      convertExpectedOut { Contains := some [s], Lines := none, Exactly := "",
                           LineCount := 0, NotContains := none, JSON := some [] }
        = .scalar s := by
  constructor
  · simp [convertToExpectedOut, Commander.toString, sprintS,
      trimNewlines_eq_self s hhead hlast]
  · simp [convertExpectedOut, isContainsASingleNonEmptyString, propertiesAreEmpty, hne]

/-- Witness for C4: the string "exit 0". -/
theorem single_string_shorthand_witness :
    convertToExpectedOut (fun _ => "") (.str "exit 0")
        = some { Contains := some ["exit 0"], Lines := none, Exactly := "", LineCount := 0,
                 NotContains := none, JSON := some [] } ∧
      convertExpectedOut { Contains := some ["exit 0"], Lines := none, Exactly := "",
                           LineCount := 0, NotContains := none, JSON := some [] }
        = .scalar "exit 0" :=
  single_string_shorthand (fun _ => "") "exit 0" (by decide) (by decide) (by decide)

/-- C5, the code at the failing inputs: a record with a json assertion is
collapsed to a bare string when it has one contains entry, and to absent when
it has none, because `propertiesAreEmpty` does not look at the json field. -/
theorem json_record_is_collapsed :
    convertToExpectedOut (fun _ => "")
        (.map [(.str "contains", .list [.str "a"]),
               (.str "json", .map [(.str "k", .str "v")])])
        = some { Contains := some ["a"], JSON := some [("k", "v")] } ∧
      convertExpectedOut { Contains := some ["a"], JSON := some [("k", "v")] }
        = .scalar "a" ∧
      convertExpectedOut { JSON := some [("k", "v")] } = .absent := by
  refine ⟨?_, ?_, ?_⟩ <;> decide

/-- C6, counterexample: the object `{ lines: {} }` normalises to a record whose
every field has no entries, but whose lines map is non-nil; the serialiser
returns the structured record for it, not absent. -/
theorem empty_lines_map_is_not_absent :
    convertToExpectedOut (fun _ => "") (.map [(.str "lines", .map [])])
        = some { Lines := some [], JSON := some [] } ∧
      (entries (some [] : Option (List (Int × String))) = []) ∧
      convertExpectedOut { Lines := some [], JSON := some [] }
        = .structured { Lines := some [], JSON := some [] } ∧
      convertExpectedOut { Lines := some [], JSON := some [] } ≠ .absent := by
  refine ⟨?_, ?_, ?_, ?_⟩ <;> decide

/-- C6, amended: `convertExpectedOut` returns absent for every record whose
contains list has no entries or is exactly one empty string, whose exactly is
empty, whose line count is 0, whose json has no entries, and whose lines map
and not-contains list are nil (unset). -/
theorem convertExpectedOut_absent (e : ExpectedOut)
    (hc : entries e.Contains = [] ∨ entries e.Contains = [""])
    (hl : e.Lines = none) (hx : e.Exactly = "") (hn : e.LineCount = 0)
    (hnc : e.NotContains = none) (_hj : entries e.JSON = []) :
    convertExpectedOut e = .absent := by
  have hp : propertiesAreEmpty e = true := by
    simp [propertiesAreEmpty, hl, hx, hn, hnc]
  have hp' : propertiesAreEmpty { e with Contains := none } = true := by
    simp [propertiesAreEmpty, hl, hx, hn, hnc]
  rcases hc with hc | hc
  · simp [convertExpectedOut, isContainsASingleNonEmptyString, hc, hp]
  · simp [convertExpectedOut, isContainsASingleNonEmptyString, hc, hp']

/-- Witness for C6: the record whose contains is the single empty string. -/
theorem convertExpectedOut_absent_witness :
    convertExpectedOut { Contains := some [""], JSON := some [] } = .absent :=
  convertExpectedOut_absent { Contains := some [""], JSON := some [] }
    (Or.inr rfl) rfl rfl rfl rfl rfl

/-- C7, counterexample: for `{ contains: [""], not-contains: ["c"] }` the
normalised record has contains = [""], but the structured object returned by
`convertExpectedOut` has lost that contains list. -/
theorem lone_empty_contains_is_dropped :
    convertToExpectedOut (fun _ => "")
        (.map [(.str "contains", .list [.str ""]),
               (.str "not-contains", .list [.str "c"])])
        = some { Contains := some [""], NotContains := some ["c"], JSON := some [] } ∧
      convertExpectedOut { Contains := some [""], NotContains := some ["c"], JSON := some [] }
        = .structured { Contains := none, NotContains := some ["c"], JSON := some [] } ∧
      entries (none : Option (List String)) ≠ [""] := by
  refine ⟨?_, ?_, ?_⟩ <;> decide

/-- C7, amended: for lists of newline-free strings `xs` and `ys`, where `xs` has at
least two entries or `ys` is non-empty, the object
`{ contains: xs, not-contains: ys }` normalises to a record with contains = `xs`,
not-contains = `ys` (authoring order) and nothing else; `convertExpectedOut`
returns that record as a structured object, never a bare string and never
absent, with the same two lists, except that a contains list that is the
single empty string is left out of it. -/
theorem multi_field_assertion (fmtOther : Value → String) (xs ys : List String)
    (hxs : ∀ s ∈ xs, '\n' ∉ s.toList) (hys : ∀ s ∈ ys, '\n' ∉ s.toList)
    (hshape : 2 ≤ xs.length ∨ ys ≠ []) :
    ∃ e : ExpectedOut,
      convertToExpectedOut fmtOther
          (.map [(.str "contains", .list (xs.map Value.str)),
                 (.str "not-contains", .list (ys.map Value.str))]) = some e ∧
        entries e.Contains = xs ∧ entries e.NotContains = ys ∧
        entries e.Lines = [] ∧ e.Exactly = "" ∧ e.LineCount = 0 ∧ entries e.JSON = [] ∧
        convertExpectedOut e
          = .structured (if xs = [""] then { e with Contains := none } else e) := by
  have hxs' : ∀ s ∈ xs, trimNewlines s = s := fun s hs => trimNewlines_of_not_mem s (hxs s hs)
  have hys' : ∀ s ∈ ys, trimNewlines s = s := fun s hs => trimNewlines_of_not_mem s (hys s hs)
  refine ⟨{ Contains := if xs = [] then none else some xs,
            NotContains := if ys = [] then none else some ys,
            JSON := some [] }, ?_, ?_, ?_, rfl, rfl, rfl, rfl, ?_⟩
  · simp [convertToExpectedOut, keyAllowed, allowedKeys, index, parseList, parseExactly,
      parseLineCount, parseLines, parseJSON, appendAll_strs fmtOther xs hxs',
      appendAll_strs fmtOther ys hys']
  · by_cases h : xs = [] <;> simp [h]
  · by_cases h : ys = [] <;> simp [h]
  · by_cases hy : ys = []
    · have hlen : 2 ≤ xs.length := by
        rcases hshape with h | h
        · exact h
        · exact absurd hy h
      have hne : xs ≠ [] := by
        intro h
        simp [h] at hlen
      match xs, hlen, hne with
      | a :: b :: rest, _, _ =>
        simp [convertExpectedOut, isContainsASingleNonEmptyString, hy]
    · by_cases hxe : xs = []
      · simp [convertExpectedOut, isContainsASingleNonEmptyString, propertiesAreEmpty, hy, hxe]
      · by_cases hx : xs = [""]
        · simp [convertExpectedOut, isContainsASingleNonEmptyString, propertiesAreEmpty, hy,
            hx]
        · simp [convertExpectedOut, isContainsASingleNonEmptyString, propertiesAreEmpty, hy,
            hxe, hx]

/-- Witness for C7: contains ["a", "b"], not-contains ["c"]. -/
theorem multi_field_assertion_witness :
    ∃ e : ExpectedOut,
      convertToExpectedOut (fun _ => "")
          (.map [(.str "contains", .list (["a", "b"].map Value.str)),
                 (.str "not-contains", .list (["c"].map Value.str))]) = some e ∧
        entries e.Contains = ["a", "b"] ∧ entries e.NotContains = ["c"] ∧
        entries e.Lines = [] ∧ e.Exactly = "" ∧ e.LineCount = 0 ∧ entries e.JSON = [] ∧
        convertExpectedOut e
          = .structured (if ["a", "b"] = [""] then { e with Contains := none } else e) :=
  multi_field_assertion (fun _ => "") ["a", "b"] ["c"] (by decide) (by decide)
    (Or.inl (by decide))

/-- C8: an authored value that is neither nil, a string nor a key-value object
(a number, a boolean, a bare list) makes `convertToExpectedOut` panic. -/
theorem other_shape_is_rejected (fmtOther : Value → String) (v : Value)
    (hnull : v ≠ .null) (hstr : ∀ s, v ≠ .str s) (hmap : ∀ kvs, v ≠ .map kvs) :
    convertToExpectedOut fmtOther v = none := by
  cases v with
  | null => exact absurd rfl hnull
  | str s => exact absurd rfl (hstr s)
  | map kvs => exact absurd rfl (hmap kvs)
  | _ => rfl

/-- Witness for C8: the bare list `[1, true]`. -/
theorem other_shape_is_rejected_witness :
    convertToExpectedOut (fun _ => "") (.list [.int 1, .bool true]) = none :=
  other_shape_is_rejected (fun _ => "") (.list [.int 1, .bool true])
    (by intro h; cases h) (by intro s h; cases h) (by intro kvs h; cases h)

/-- C9: an absent (nil) value normalises to the record with no contains entries,
empty exactly, line count 0, no lines, no not-contains entries and no json
assertions. -/
theorem absent_value_is_empty_record (fmtOther : Value → String) :
    convertToExpectedOut fmtOther .null
      = some { Contains := none, Lines := none, Exactly := "", LineCount := 0,
               NotContains := none, JSON := some [] } := by
  rfl

/-- C10: when the test keys are distinct and every authored stdout / stderr value
converts, the document loads, and the test loaded for the entry `k: v` has
title `k` and command `k` when the authored command is empty, the authored
command otherwise. -/
theorem title_defaulting (fmtOther : Value → String) (params : YAMLConfig Value)
    (hkeys : (params.Tests.map Prod.fst).Nodup)
    (hconv : ∀ kv ∈ params.Tests,
      (convertToExpectedOut fmtOther kv.2.Stdout).isSome ∧
        (convertToExpectedOut fmtOther kv.2.Stderr).isSome) :
    ∃ y, UnmarshalYAML fmtOther params = some y ∧
      ∀ kv ∈ params.Tests, ∃ t, (kv.1, t) ∈ y.Tests ∧ t.Title = kv.1 ∧
        t.Command = if kv.2.Command = "" then kv.1 else kv.2.Command := by
  have hload : ∀ kv ∈ params.Tests, ∃ out err,
      loadTest fmtOther params.Config kv.1 kv.2
        = some { Title := kv.1, Command := if kv.2.Command = "" then kv.1 else kv.2.Command,
                 ExitCode := kv.2.ExitCode, Stdout := out, Stderr := err,
                 Config := mergeConfigs kv.2.Config params.Config } := by
    intro kv hkv
    obtain ⟨out, hout⟩ := Option.isSome_iff_exists.mp (hconv kv hkv).1
    obtain ⟨err, herr⟩ := Option.isSome_iff_exists.mp (hconv kv hkv).2
    exact ⟨out, err, loadTest_eq fmtOther params.Config kv.1 kv.2 out err hout herr⟩
  obtain ⟨ts, hts, hrel⟩ := loadTests_some fmtOther params.Config params.Tests []
    (by simpa using hkeys)
    (fun kv hkv => by
      obtain ⟨out, err, h⟩ := hload kv hkv
      simp [h])
  rw [List.nil_append] at hts
  refine ⟨{ Tests := ts, Nodes := loadNodes params.Nodes, Config := params.Config },
    by simp [UnmarshalYAML, hts], ?_⟩
  intro kv hkv
  obtain ⟨kt, hkt, hk, ht⟩ := forall₂_mem_left hrel kv hkv
  obtain ⟨out, err, h⟩ := hload kv hkv
  rw [h] at ht
  have ht' := (Option.some.inj ht).symm
  refine ⟨kt.2, ?_, ?_, ?_⟩
  · simpa [← hk] using hkt
  · rw [ht']
  · rw [ht']

/-- Witness for C10: the entry `echo-hi: { exit-code: 0 }`, with no command. -/
theorem title_defaulting_witness :
    ∃ y, UnmarshalYAML (fun _ => "")
        { Tests := [("echo-hi", { ExitCode := 0, Stdout := .null, Stderr := .null })] } = some y ∧
      ∀ kv ∈ [("echo-hi", ({ ExitCode := 0, Stdout := .null, Stderr := .null } : YAMLTest Value))],
        ∃ t, (kv.1, t) ∈ y.Tests ∧ t.Title = kv.1 ∧
          t.Command = if kv.2.Command = "" then kv.1 else kv.2.Command :=
  title_defaulting (fun _ => "")
    { Tests := [("echo-hi", { ExitCode := 0, Stdout := .null, Stderr := .null })] }
    (by decide) (by
      intro kv hkv
      simp only [List.mem_singleton] at hkv
      subst hkv
      exact ⟨rfl, rfl⟩)

/-- C11: for a global and a local configuration whose env maps have distinct
keys, the env of the merged configuration has distinct keys and binds a key
to the local value when the local env binds it, to the global value when only
the global env binds it, and to nothing otherwise; global env {A: 1} merged
with local env {B: 2} is {A: 1, B: 2}. -/
theorem environment_merge (localConf globalConf : YAMLTestConfig)
    (hg : (globalConf.Env.map Prod.fst).Nodup) (hl : (localConf.Env.map Prod.fst).Nodup) :
    ((mergeConfigs localConf globalConf).Env.map Prod.fst).Nodup ∧
      (∀ k, mapGet (mergeConfigs localConf globalConf).Env k
        = match mapGet localConf.Env k with
          | some v => some v
          | none => mapGet globalConf.Env k) ∧
      (mergeConfigs { Env := [("B", "2")], Retries := 0 }
        { Env := [("A", "1")], Retries := 3 }).Env = [("A", "1"), ("B", "2")] := by
  rw [(mergeConfigs_fields localConf globalConf).1]
  refine ⟨?_, ?_, by decide⟩
  · exact foldl_mapSet_nodup _ _ (foldl_mapSet_nodup _ _ (by simp))
  · intro k
    simp only [mergeEnvironmentVariables]
    rw [mapGet_foldl_mapSet _ _ k hl, mapGet_foldl_mapSet _ _ k hg]
    cases mapGet localConf.Env k with
    | some v => rfl
    | none =>
      cases mapGet globalConf.Env k with
      | some w => rfl
      | none => rfl

/-- Witness for C11: global env {A: 1}, local env {B: 2}. -/
theorem environment_merge_witness :
    ((mergeConfigs { Env := [("B", "2")] } { Env := [("A", "1")] }).Env.map Prod.fst).Nodup ∧
      (∀ k, mapGet (mergeConfigs { Env := [("B", "2")] } { Env := [("A", "1")] }).Env k
        = match mapGet ({ Env := [("B", "2")] } : YAMLTestConfig).Env k with
          | some v => some v
          | none => mapGet ({ Env := [("A", "1")] } : YAMLTestConfig).Env k) ∧
      (mergeConfigs { Env := [("B", "2")], Retries := 0 }
        { Env := [("A", "1")], Retries := 3 }).Env = [("A", "1"), ("B", "2")] :=
  environment_merge { Env := [("B", "2")] } { Env := [("A", "1")] } (by decide) (by decide)

/-- C12: in the merged configuration Dir, Timeout and Interval are the local
string when it is non-empty and the global one otherwise, and Nodes is the
local list when it is non-empty and the global one otherwise. -/
theorem merge_strings_and_nodes (localConf globalConf : YAMLTestConfig) :
    (mergeConfigs localConf globalConf).Dir
        = (if localConf.Dir ≠ "" then localConf.Dir else globalConf.Dir) ∧
      (mergeConfigs localConf globalConf).Timeout
        = (if localConf.Timeout ≠ "" then localConf.Timeout else globalConf.Timeout) ∧
      (mergeConfigs localConf globalConf).Interval
        = (if localConf.Interval ≠ "" then localConf.Interval else globalConf.Interval) ∧
      (mergeConfigs localConf globalConf).Nodes
        = (if localConf.Nodes ≠ [] then localConf.Nodes else globalConf.Nodes) := by
  obtain ⟨_, hd, ht, _, hi, _, hn⟩ := mergeConfigs_fields localConf globalConf
  exact ⟨hd, ht, hi, hn⟩

/-- C13: the merged Retries is the local value when that is not 0 and the global
value when it is 0; global retries 3 with local retries 0 gives 3. -/
theorem merge_retries (localConf globalConf : YAMLTestConfig) :
    (mergeConfigs localConf globalConf).Retries
        = (if localConf.Retries ≠ 0 then localConf.Retries else globalConf.Retries) ∧
      (mergeConfigs { Env := [("B", "2")], Retries := 0 }
        { Env := [("A", "1")], Retries := 3 }).Retries = 3 := by
  exact ⟨(mergeConfigs_fields localConf globalConf).2.2.2.1, by decide⟩

/-- C14: the merged InheritEnv is the disjunction of the local and the global
flag, so it is true whenever the global flag is. -/
theorem merge_inherit_env (localConf globalConf : YAMLTestConfig) :
    (mergeConfigs localConf globalConf).InheritEnv
        = (localConf.InheritEnv || globalConf.InheritEnv) ∧
      (mergeConfigs localConf { globalConf with InheritEnv := true }).InheritEnv = true := by
  refine ⟨(mergeConfigs_fields localConf globalConf).2.2.2.2.2.1, ?_⟩
  rw [(mergeConfigs_fields localConf { globalConf with InheritEnv := true }).2.2.2.2.2.1]
  exact Bool.or_true _

/-- C15: when the stdout or the stderr value of at least one test entry is
rejected by `convertToExpectedOut`, `UnmarshalYAML` panics and `ParseYAML`
returns no suite, whatever the other entries are. -/
theorem whole_load_failure (fmtOther : Value → String) (params : YAMLConfig Value)
    (h : ∃ kv ∈ params.Tests, convertToExpectedOut fmtOther kv.2.Stdout = none ∨
      convertToExpectedOut fmtOther kv.2.Stderr = none) :
    UnmarshalYAML fmtOther params = none ∧ ParseYAML fmtOther params = none := by
  obtain ⟨kv, hkv, hrej⟩ := h
  have hts : loadTests fmtOther params.Config params.Tests [] = none :=
    loadTests_eq_none fmtOther params.Config params.Tests []
      ⟨kv, hkv, loadTest_eq_none fmtOther params.Config kv.1 kv.2 hrej⟩
  have hu : UnmarshalYAML fmtOther params = none := by
    simp [UnmarshalYAML, hts]
  exact ⟨hu, by simp [ParseYAML, hu]⟩

/-- Witness for C15: two valid entries around one whose stdout is `{ foo: 1 }`. -/
theorem whole_load_failure_witness :
    UnmarshalYAML (fun _ => "")
        { Tests := [("a", { Stdout := .null, Stderr := .null }),
                    ("b", { Stdout := .map [(.str "foo", .int 1)], Stderr := .null }),
                    ("c", { Stdout := .str "ok", Stderr := .null })] } = none ∧
      ParseYAML (fun _ => "")
        { Tests := [("a", { Stdout := .null, Stderr := .null }),
                    ("b", { Stdout := .map [(.str "foo", .int 1)], Stderr := .null }),
                    ("c", { Stdout := .str "ok", Stderr := .null })] } = none :=
  whole_load_failure (fun _ => "") _
    ⟨("b", { Stdout := .map [(.str "foo", .int 1)], Stderr := .null }), by simp,
      Or.inl rfl⟩

/-- C16: when a document with distinct test keys loads, the test cases of the
suite correspond one to one to the authored entries: the test case of the
entry `k: v` has title `k`, the authored exit code, the stdout and stderr
records `convertToExpectedOut` builds from the authored values, and the
inherit-env flag, env, dir, timeout, retries, interval and node names of
`mergeConfigs v.Config params.Config`. -/
theorem test_case_assembly (fmtOther : Value → String) (params : YAMLConfig Value)
    (suite : Suite) (hkeys : (params.Tests.map Prod.fst).Nodup)
    (hload : ParseYAML fmtOther params = some suite) :
    List.Forall₂ (fun kv tc =>
        tc.Title = kv.1 ∧ tc.Expected.ExitCode = kv.2.ExitCode ∧
        convertToExpectedOut fmtOther kv.2.Stdout = some tc.Expected.Stdout ∧
        convertToExpectedOut fmtOther kv.2.Stderr = some tc.Expected.Stderr ∧
        tc.Command.InheritEnv = (mergeConfigs kv.2.Config params.Config).InheritEnv ∧
        tc.Command.Env = (mergeConfigs kv.2.Config params.Config).Env ∧
        tc.Command.Dir = (mergeConfigs kv.2.Config params.Config).Dir ∧
        tc.Command.Timeout = (mergeConfigs kv.2.Config params.Config).Timeout ∧
        tc.Command.Retries = (mergeConfigs kv.2.Config params.Config).Retries ∧
        tc.Command.Interval = (mergeConfigs kv.2.Config params.Config).Interval ∧
        tc.Nodes = (mergeConfigs kv.2.Config params.Config).Nodes)
      params.Tests suite.TestCases := by
  obtain ⟨ts, hts, hcases, _⟩ := ParseYAML_eq_some fmtOther params suite hload
  obtain ⟨ts', hts', hrel⟩ := loadTests_some fmtOther params.Config params.Tests []
    (by simpa using hkeys) (loadTests_bodies fmtOther params.Config params.Tests [] ts hts)
  rw [hts, List.nil_append, Option.some.injEq] at hts'
  subst hts'
  rw [hcases]
  simp only [convertYAMLConfToTestCases]
  rw [List.forall₂_map_right_iff]
  refine List.Forall₂.imp ?_ hrel
  intro kv kt hkt
  obtain ⟨_, hbody⟩ := hkt
  obtain ⟨out, err, hout, herr, ht⟩ :=
    loadTest_eq_some fmtOther params.Config kv.1 kv.2 kt.2 hbody
  rw [ht]
  exact ⟨rfl, rfl, hout, herr, rfl, rfl, rfl, rfl, rfl, rfl, rfl⟩

/-- Witness for C16: a document with a global and a local configuration. -/
theorem test_case_assembly_witness :
    List.Forall₂ (fun (kv : String × YAMLTest Value) (tc : TestCase) =>
        tc.Title = kv.1 ∧ tc.Expected.ExitCode = kv.2.ExitCode ∧
        convertToExpectedOut (fun _ => "") kv.2.Stdout = some tc.Expected.Stdout ∧
        convertToExpectedOut (fun _ => "") kv.2.Stderr = some tc.Expected.Stderr ∧
        tc.Command.InheritEnv
          = (mergeConfigs kv.2.Config { Env := [("A", "1")], Retries := 3 }).InheritEnv ∧
        tc.Command.Env = (mergeConfigs kv.2.Config { Env := [("A", "1")], Retries := 3 }).Env ∧
        tc.Command.Dir = (mergeConfigs kv.2.Config { Env := [("A", "1")], Retries := 3 }).Dir ∧
        tc.Command.Timeout
          = (mergeConfigs kv.2.Config { Env := [("A", "1")], Retries := 3 }).Timeout ∧
        tc.Command.Retries
          = (mergeConfigs kv.2.Config { Env := [("A", "1")], Retries := 3 }).Retries ∧
        tc.Command.Interval
          = (mergeConfigs kv.2.Config { Env := [("A", "1")], Retries := 3 }).Interval ∧
        tc.Nodes = (mergeConfigs kv.2.Config { Env := [("A", "1")], Retries := 3 }).Nodes)
      [("echo-hi", ({ ExitCode := 0, Stdout := .str "hi", Stderr := .null,
                      Config := { Env := [("B", "2")] } } : YAMLTest Value))]
      [({ Title := "echo-hi",
          Command := { Cmd := "echo-hi", Env := [("A", "1"), ("B", "2")], Retries := 3 },
          Expected := { ExitCode := 0, Stdout := { Contains := some ["hi"], JSON := some [] },
                        Stderr := { JSON := some [] } } } : TestCase)] :=
  test_case_assembly (fun _ => "")
    { Tests := [("echo-hi", { ExitCode := 0, Stdout := .str "hi", Stderr := .null,
                              Config := { Env := [("B", "2")] } })],
      Config := { Env := [("A", "1")], Retries := 3 } }
    { TestCases := [{ Title := "echo-hi",
                      Command := { Cmd := "echo-hi", Env := [("A", "1"), ("B", "2")],
                                   Retries := 3 },
                      Expected := { ExitCode := 0,
                                    Stdout := { Contains := some ["hi"], JSON := some [] },
                                    Stderr := { JSON := some [] } } }],
      Config := { Env := [("A", "1")], Retries := 3 } }
    (by decide) (by decide)

/-- C17: when a document with distinct node keys loads, the nodes of the suite
correspond one to one to the authored node entries: the node of the entry
`k: v` has name `k`, the authored type, user, pass, addr and identity-file,
and an empty image when none is authored. -/
theorem node_registry (fmtOther : Value → String) (params : YAMLConfig Value)
    (suite : Suite) (hkeys : (params.Nodes.map Prod.fst).Nodup)
    (hload : ParseYAML fmtOther params = some suite) :
    List.Forall₂ (fun kv n =>
        n.Name = kv.1 ∧ n.Kind = kv.2.Kind ∧ n.User = kv.2.User ∧ n.Pass = kv.2.Pass ∧
        n.Addr = kv.2.Addr ∧ n.IdentityFile = kv.2.IdentityFile ∧
        (kv.2.Image = "" → n.Image = ""))
      params.Nodes suite.Nodes := by
  obtain ⟨_, _, _, hnodes⟩ := ParseYAML_eq_some fmtOther params suite hload
  rw [hnodes, loadNodes_eq params.Nodes hkeys]
  simp only [convertNodes, List.map_map]
  rw [List.forall₂_map_right_iff]
  exact List.forall₂_same.mpr fun kv _ => ⟨rfl, rfl, rfl, rfl, rfl, rfl, fun _ => rfl⟩

/-- Witness for C17: `nodes: { web: {type: ssh, user: root} }`. -/
theorem node_registry_witness :
    List.Forall₂ (fun (kv : String × NodeConf) (n : Node) =>
        n.Name = kv.1 ∧ n.Kind = kv.2.Kind ∧ n.User = kv.2.User ∧ n.Pass = kv.2.Pass ∧
        n.Addr = kv.2.Addr ∧ n.IdentityFile = kv.2.IdentityFile ∧
        (kv.2.Image = "" → n.Image = ""))
      [("web", ({ Kind := "ssh", User := "root" } : NodeConf))]
      [({ Name := "web", Kind := "ssh", User := "root", Pass := "", Addr := "", Image := "",
          IdentityFile := "" } : Node)] :=
  node_registry (fun _ => "")
    { Nodes := [("web", { Kind := "ssh", User := "root" })] }
    { Nodes := [{ Name := "web", Kind := "ssh", User := "root" }] }
    (by decide) (by decide)

/-- C18, the code at the failing input: a docker node authored with image
"ubuntu" is in the registry with an empty image, because the nodes loop of
`UnmarshalYAML` does not copy `Image`. -/
theorem node_image_is_lost :
    ParseYAML (fun _ => "")
        { Nodes := [("box", { Kind := "docker", User := "root", Image := "ubuntu" })] }
      = some { Nodes := [{ Name := "box", Kind := "docker", User := "root", Image := "" }] } := by
  decide

/-- C19, counterexample: the json value "v\n" is stored as authored, with its
trailing newline, while the trimmed leaf is "v". -/
theorem json_value_is_not_trimmed :
    convertToExpectedOut (fun _ => "")
        (.map [(.str "json", .map [(.str "k", .str "v\n")])])
        = some { JSON := some [("k", "v\n")] } ∧
      trimNewlines "v\n" = "v" ∧ "v\n" ≠ "v" := by
  refine ⟨?_, ?_, ?_⟩ <;> decide

/-- C19, amended: for an object whose keys all pass the key check and whose
contains, exactly, line-count, lines, not-contains and json keys hold, when
set, a list of strings, a string, an integer, a map from distinct integers to
strings, a list of strings and a map from distinct strings to strings,
`convertToExpectedOut` succeeds; each contains entry, each not-contains
entry, the exactly value and each lines value is stored as the authored leaf
with its surrounding newlines trimmed, each lines entry under its authored
integer key, and each json value is stored as authored, untrimmed. -/
theorem stored_leaves (fmtOther : Value → String) (kvs : List (Value × Value))
    (contains notContains : Option (List String)) (exactly : Option String)
    (lineCount : Option Int) (lines : Option (List (Int × String)))
    (json : Option (List (String × String)))
    (hall : ∀ kv ∈ kvs, ∃ s ∈ ["contains", "exactly", "line-count", "lines", "json", "xml",
      "not-contains"], kv.1 = Value.str s)
    (hc : index kvs "contains" = authoredList contains)
    (hx : index kvs "exactly" = authoredString exactly)
    (hn : index kvs "line-count" = authoredInt lineCount)
    (hl : index kvs "lines" = authoredLines lines)
    (hlk : ((entries lines).map Prod.fst).Nodup)
    (hnc : index kvs "not-contains" = authoredList notContains)
    (hj : index kvs "json" = authoredJSON json)
    (hjk : ((entries json).map Prod.fst).Nodup) :
    ∃ e, convertToExpectedOut fmtOther (.map kvs) = some e ∧
      entries e.Contains = (entries contains).map trimNewlines ∧
      e.Exactly = trimNewlines (exactly.getD "") ∧
      e.LineCount = lineCount.getD 0 ∧
      entries e.Lines = (entries lines).map (fun kv => (kv.1, trimNewlines kv.2)) ∧
      entries e.NotContains = (entries notContains).map trimNewlines ∧
      entries e.JSON = entries json := by
  have hkeys : kvs.all (fun kv => keyAllowed kv.1) = true := by
    rw [List.all_eq_true]
    intro kv hkv
    obtain ⟨s, hs, hkey⟩ := hall kv hkv
    rw [hkey]
    simpa [keyAllowed, allowedKeys] using hs
  obtain ⟨c, hpc, hce⟩ := parseList_authored fmtOther contains
  obtain ⟨nc, hpnc, hnce⟩ := parseList_authored fmtOther notContains
  obtain ⟨ls, hpl, hle⟩ := parseLines_authored fmtOther lines hlk
  refine ⟨{ Contains := c, Lines := ls, Exactly := trimNewlines (exactly.getD ""),
            LineCount := lineCount.getD 0, NotContains := nc,
            JSON := some (entries json) }, ?_, hce, rfl, rfl, hle, hnce, rfl⟩
  simp only [convertToExpectedOut, hkeys, if_true, hc, hx, hn, hl, hnc, hj, hpc, hpnc, hpl,
    parseExactly_authored, parseLineCount_authored, parseJSON_authored json hjk,
    Option.bind_eq_bind, Option.some_bind, Option.pure_def]

/-- Witness for C19: an object that sets five keys, with newlines around leaves. -/
theorem stored_leaves_witness :
    ∃ e, convertToExpectedOut (fun _ => "")
        (.map [(.str "contains", .list [.str "a\n", .str "\nb"]),
               (.str "exactly", .str "x\n\n"),
               (.str "lines", .map [(.int 2, .str "two\n"), (.int 1, .str "one")]),
               (.str "not-contains", .list [.str "c\n"]),
               (.str "json", .map [(.str "k", .str "v\n")])]) = some e ∧
      entries e.Contains = (entries (some ["a\n", "\nb"])).map trimNewlines ∧
      e.Exactly = trimNewlines ((some "x\n\n").getD "") ∧
      e.LineCount = (none : Option Int).getD 0 ∧
      entries e.Lines
        = (entries (some [(2, "two\n"), (1, "one")])).map
            (fun kv => (kv.1, trimNewlines kv.2)) ∧
      entries e.NotContains = (entries (some ["c\n"])).map trimNewlines ∧
      entries e.JSON = entries (some [("k", "v\n")]) :=
  stored_leaves (fun _ => "") _ (some ["a\n", "\nb"]) (some ["c\n"]) (some "x\n\n") none
    (some [(2, "two\n"), (1, "one")]) (some [("k", "v\n")])
    (by simp) rfl rfl rfl rfl (by decide) rfl rfl (by decide)

/-- C20: merging the merged configuration with the same global configuration
again changes no field; the two env maps bind every key alike. -/
theorem merge_idempotent (localConf globalConf : YAMLTestConfig) :
    (mergeConfigs (mergeConfigs localConf globalConf) globalConf).Dir
        = (mergeConfigs localConf globalConf).Dir ∧
      (mergeConfigs (mergeConfigs localConf globalConf) globalConf).Timeout
        = (mergeConfigs localConf globalConf).Timeout ∧
      (mergeConfigs (mergeConfigs localConf globalConf) globalConf).Retries
        = (mergeConfigs localConf globalConf).Retries ∧
      (mergeConfigs (mergeConfigs localConf globalConf) globalConf).Interval
        = (mergeConfigs localConf globalConf).Interval ∧
      (mergeConfigs (mergeConfigs localConf globalConf) globalConf).InheritEnv
        = (mergeConfigs localConf globalConf).InheritEnv ∧
      (mergeConfigs (mergeConfigs localConf globalConf) globalConf).Nodes
        = (mergeConfigs localConf globalConf).Nodes ∧
      ∀ k, mapGet (mergeConfigs (mergeConfigs localConf globalConf) globalConf).Env k
        = mapGet (mergeConfigs localConf globalConf).Env k := by
  obtain ⟨he, hd, ht, hr, hi, hb, hn⟩ := mergeConfigs_fields localConf globalConf
  obtain ⟨he', hd', ht', hr', hi', hb', hn'⟩ :=
    mergeConfigs_fields (mergeConfigs localConf globalConf) globalConf
  refine ⟨?_, ?_, ?_, ?_, ?_, ?_, ?_⟩
  · rw [hd', hd]
    by_cases h : localConf.Dir = ""
    · simp [h]
    · simp [h]
  · rw [ht', ht]
    by_cases h : localConf.Timeout = ""
    · simp [h]
    · simp [h]
  · rw [hr', hr]
    by_cases h : localConf.Retries = 0
    · simp [h]
    · simp [h]
  · rw [hi', hi]
    by_cases h : localConf.Interval = ""
    · simp [h]
    · simp [h]
  · rw [hb', hb]
    cases localConf.InheritEnv <;> cases globalConf.InheritEnv <;> rfl
  · rw [hn', hn]
    by_cases h : localConf.Nodes = []
    · simp [h]
    · simp [h]
  · intro k
    rw [he']
    have hm : ((mergeConfigs localConf globalConf).Env.map Prod.fst).Nodup := by
      rw [he]
      exact foldl_mapSet_nodup _ _ (foldl_mapSet_nodup _ _ (by simp))
    simp only [mergeEnvironmentVariables]
    rw [mapGet_foldl_mapSet _ _ k hm]
    cases hk : mapGet (mergeConfigs localConf globalConf).Env k with
    | some v => rfl
    | none =>
      show mapGet (globalConf.Env.foldl (fun env kv => mapSet env kv.1 kv.2) []) k = none
      rw [mapGet_eq_none_iff] at hk ⊢
      intro hmem
      apply hk
      rw [he]
      exact foldl_mapSet_keys _ _ k hmem

end Commander
